import Mathlib

/-!
Shallow embedding of the eth-connector NEAR contract
(`src/evm-fungible-token/src/lib.rs` and
`src/evm-fungible-token/src/connector/prover.rs`).

Modelling conventions:
* Machine integers (`u64`, `u128`, `usize`) become `Nat`, with explicit
  `% 2 ^ w` or side conditions where wrap-around or width matters.
* Byte buffers (`Vec<u8>`, `[u8; 20]`, `H256`) become `List Nat`.
* Fallible code (Rust panics via `assert!` / `expect` / checked arithmetic)
  becomes `Except Err _`.  On the NEAR host a panic aborts the call and
  reverts every state write of that call, so an `.error` outcome carries no
  successor state; the `..._state` wrappers make the revert explicit.
* Host primitives that live outside the repository (`env::sha256`,
  `env::storage_usage`, the keccak hash used by `ethabi` event signatures)
  are passed in as explicit function parameters.
* Promises (`ext_prover::verify_log_entry`, `ext_bridge_token::mint`, the
  scheduled `finish_deposit` continuation) are embedded as records of the
  call that was scheduled; an `.error` outcome schedules no call.
-/

deriving instance DecidableEq for Except

set_option maxRecDepth 40000

namespace EthConn

/-! ## Definitions -/

/-- Byte sequences (`Vec<u8>`); each entry is a byte value `< 256`. -/
abbrev Bytes := List Nat

/-- NEAR account ids (`AccountId = String`). -/
abbrev AccountId := String

/-- The `Balance = u128`. -/
abbrev Balance := Nat

/-- Abort causes of the contract code: every Rust `panic!` / failed
`assert!` / `expect` in the modelled paths is mapped to one constructor. -/
inductive Err where
  /-- The `rlp::decode(data).expect("Invalid RLP")` failed. -/
  | invalidRlp
  /-- The `event.parse_log(raw_log).expect("Failed to parse event log")` or a
  later `ethabi`-level extraction failed. -/
  | invalidData
  /-- The `validate_eth_address` rejected the input (not hex, or not 20 bytes). -/
  | invalidEthAddress
  /-- The `deposit`'s `assert_eq!` on the custodian address failed. -/
  | custodianMismatch
  /-- The `assert_self()` failed: predecessor is not the contract itself. -/
  | unauthorizedCallback
  /-- The `assert!(verification_success, "Failed to verify the proof")` failed. -/
  | verificationFailed
  /-- The `assert!(!self.used_events.contains(&key), ...)` failed. -/
  | proofAlreadyUsed
  /-- The checked `attached_deposit - required_deposit` subtraction in
  `record_proof` underflowed. -/
  | insufficientDeposit
  /-- The `finish_withdraw`'s sub-account `assert_eq!` failed. -/
  | notSubAccount
  deriving DecidableEq, Repr

/-- Big-endian interpretation of a byte string. -/
def beNat (b : Bytes) : Nat := b.foldl (fun acc x => acc * 256 + x) 0

/-- Minimal big-endian byte representation, computed with structural fuel
(the value itself bounds the number of digits). -/
def natToBeBytesF : Nat → Nat → Bytes
  | _, 0 => []
  | 0, _ + 1 => []
  | fuel + 1, n + 1 =>
      natToBeBytesF fuel ((n + 1) / 256) ++ [(n + 1) % 256]

/-- Minimal big-endian byte representation of `n` (no leading zero; `0 ↦ []`). -/
def natToBeBytes (n : Nat) : Bytes := natToBeBytesF n n

/-- Borsh serialization of a `u64`: 8 bytes, little-endian
(`proof.log_index.try_to_vec().unwrap()`). -/
def borshU64 (n : Nat) : Bytes :=
  [n % 256, n / 256 % 256, n / 256 ^ 2 % 256, n / 256 ^ 3 % 256,
   n / 256 ^ 4 % 256, n / 256 ^ 5 % 256, n / 256 ^ 6 % 256, n / 256 ^ 7 % 256]

/-- Value of one hex digit (`0-9`, `a-f`, `A-F`). -/
def hexDigit (c : Char) : Option Nat :=
  if '0' ≤ c ∧ c ≤ '9' then some (c.toNat - '0'.toNat)
  else if 'a' ≤ c ∧ c ≤ 'f' then some (c.toNat - 'a'.toNat + 10)
  else if 'A' ≤ c ∧ c ≤ 'F' then some (c.toNat - 'A'.toNat + 10)
  else none

/-- The `hex::decode` on a character list: pairs of hex digits; odd length or a
non-hex character fails. -/
def hexDecodeList : List Char → Option Bytes
  | [] => some []
  | [_] => none
  | c1 :: c2 :: rest => do
      let h ← hexDigit c1
      let l ← hexDigit c2
      let tl ← hexDecodeList rest
      some ((h * 16 + l) :: tl)

/-- The `hex::decode` on a `String`. -/
def hexDecode (s : String) : Option Bytes := hexDecodeList s.data

inductive RlpItem where
  | str (b : Bytes)
  | list (items : List RlpItem)

/-- Length prefix of an RLP payload: short form below 56 bytes, long form
with a big-endian length otherwise.  `offset` is `0x80` for strings and
`0xc0` for lists. -/
def rlpEncodeLen (len offset : Nat) : Bytes :=
  if len < 56 then [offset + len]
  else
    let lb := natToBeBytes len
    (offset + 55 + lb.length) :: lb

/-- RLP encoding of a byte string: a single byte below `0x80` encodes as
itself, otherwise a length prefix precedes the bytes. -/
def rlpEncodeBytes (b : Bytes) : Bytes :=
  match b with
  | [x] => if x < 128 then [x] else rlpEncodeLen 1 128 ++ b
  | _ => rlpEncodeLen b.length 128 ++ b

mutual

/-- RLP encoding of an item. -/
def rlpEncode : RlpItem → Bytes
  | .str b => rlpEncodeBytes b
  | .list items =>
      let p := rlpEncodeList items
      rlpEncodeLen p.length 192 ++ p

/-- Concatenated RLP encodings of a sequence of items (a list payload). -/
def rlpEncodeList : List RlpItem → Bytes
  | [] => []
  | i :: rest => rlpEncode i ++ rlpEncodeList rest

end

/-- Header parsing of the `rlp` crate: reads one item's kind and payload off
the front of `b`, returning `(isList, payload, rest)`; enforces canonical
form (no indirection for a single small byte, no short payload in long form,
no leading zero in a long length). -/
def rlpPayload (b : Bytes) : Except Err (Bool × Bytes × Bytes) :=
  match b with
  | [] => .error .invalidRlp
  | c :: tl =>
    if c < 128 then .ok (false, [c], tl)
    else if c < 184 then
      let len := c - 128
      if len ≤ tl.length then
        let payload := tl.take len
        if len = 1 ∧ payload.headD 0 < 128 then .error .invalidRlp
        else .ok (false, payload, tl.drop len)
      else .error .invalidRlp
    else if c < 192 then
      let lenlen := c - 183
      if lenlen ≤ tl.length then
        let lenBytes := tl.take lenlen
        let len := beNat lenBytes
        if lenBytes.headD 0 = 0 ∨ len < 56 then .error .invalidRlp
        else if len ≤ tl.length - lenlen then
          .ok (false, (tl.drop lenlen).take len, (tl.drop lenlen).drop len)
        else .error .invalidRlp
      else .error .invalidRlp
    else if c < 248 then
      let len := c - 192
      if len ≤ tl.length then .ok (true, tl.take len, tl.drop len)
      else .error .invalidRlp
    else
      let lenlen := c - 247
      if lenlen ≤ tl.length then
        let lenBytes := tl.take lenlen
        let len := beNat lenBytes
        if lenBytes.headD 0 = 0 ∨ len < 56 then .error .invalidRlp
        else if len ≤ tl.length - lenlen then
          .ok (true, (tl.drop lenlen).take len, (tl.drop lenlen).drop len)
        else .error .invalidRlp
      else .error .invalidRlp

/-- Splits an RLP list payload into its top-level items
(`(isList, payload)` pairs), with fuel bounded by the byte length. -/
def rlpSplitItemsFuel : Nat → Bytes → Except Err (List (Bool × Bytes))
  | _, [] => .ok []
  | 0, _ :: _ => .error .invalidRlp
  | fuel + 1, b@(_ :: _) => do
      let (isL, payload, rest) ← rlpPayload b
      let tlItems ← rlpSplitItemsFuel fuel rest
      .ok ((isL, payload) :: tlItems)

/-- Splits an RLP list payload into its top-level items. -/
def rlpSplitItems (b : Bytes) : Except Err (List (Bool × Bytes)) :=
  rlpSplitItemsFuel b.length b

/-- The `eth_types::LogEntry`: the RLP-decoded 3-tuple
`(address, topics, data)` of a raw Ethereum log entry. -/
structure LogEntry where
  address : Bytes
  topics : List Bytes
  data : Bytes
  deriving DecidableEq, Repr

/-- The `rlp::decode::<LogEntry>(data)`: the top-level item must be a list;
`val_at(0)` reads an `H160` (a 20-byte string), `list_at(1)` a list of
`H256` (32-byte strings), `val_at(2)` a byte string.  Like the
lazily-indexing `rlp` crate, only the headers of items 0 to 2 are parsed:
whatever bytes follow item 2 in the outer payload — further items, even
malformed ones, or garbage — are never read, and trailing bytes after the
top-level item are likewise ignored. -/
def rlpDecodeLogEntry (b : Bytes) : Except Err LogEntry := do
  let (isL, payload, _rest) ← rlpPayload b
  if isL then do
    let (k0, addr, r0) ← rlpPayload payload
    let (k1, topicsPayload, r1) ← rlpPayload r0
    let (k2, dat, _r2) ← rlpPayload r1
    if k0 = false ∧ addr.length = 20 then
      if k1 = true then do
        let titems ← rlpSplitItems topicsPayload
        let topics ← titems.mapM (fun it =>
          if it.1 = false ∧ it.2.length = 32 then .ok it.2
          else (.error .invalidRlp : Except Err Bytes))
        if k2 = false then .ok ⟨addr, topics, dat⟩
        else .error .invalidRlp
      else .error .invalidRlp
    else .error .invalidRlp
  else .error .invalidRlp

/-- The RLP item of a log entry built from known
`(address, topics, payload)`. -/
def mkLogEntryItem (addr : Bytes) (topics : List Bytes) (dat : Bytes) :
    RlpItem :=
  .list [.str addr, .list (topics.map .str), .str dat]

/-- The wire bytes of a log entry built from known fields (what the Solidity
side would emit and the relayer would submit as `log_entry_data`). -/
def mkLogEntryData (addr : Bytes) (topics : List Bytes) (dat : Bytes) :
    Bytes :=
  rlpEncode (mkLogEntryItem addr topics dat)

/-- Kind bit the parser reports for an item. -/
def itemKind : RlpItem → Bool
  | .str _ => false
  | .list _ => true

/-- Payload bytes the parser reports for an item. -/
def itemPayload : RlpItem → Bytes
  | .str b => b
  | .list l => rlpEncodeList l

/-- Top-level well-formedness: the item's payload length fits the 8-byte
length field of the long form. -/
def topWF : RlpItem → Prop
  | .str b => b.length < 2 ^ 64
  | .list l => (rlpEncodeList l).length < 2 ^ 64

/-- Continuation byte of a UTF-8 sequence (`0x80..0xBF`). -/
def isCont (b : Nat) : Bool := decide (128 ≤ b ∧ b ≤ 191)

/-- Validity of a byte string as UTF-8, per RFC 3629 as enforced by Rust's
`String::from_utf8`: 1-byte ASCII, 2-byte `C2..DF`, 3-byte `E0/E1..EC/ED/
EE..EF` with their restricted second bytes (no overlongs, no surrogates),
4-byte `F0/F1..F3/F4` with their restricted second bytes (no overlongs,
nothing above `U+10FFFF`). -/
def utf8Valid : Bytes → Bool
  | [] => true
  | b :: rest =>
    if b ≤ 127 then utf8Valid rest
    else if 194 ≤ b ∧ b ≤ 223 then
      match rest with
      | c1 :: rest2 => isCont c1 && utf8Valid rest2
      | [] => false
    else if b = 224 then
      match rest with
      | c1 :: c2 :: rest2 =>
          decide (160 ≤ c1 ∧ c1 ≤ 191) && isCont c2 && utf8Valid rest2
      | _ => false
    else if (225 ≤ b ∧ b ≤ 236) ∨ b = 238 ∨ b = 239 then
      match rest with
      | c1 :: c2 :: rest2 => isCont c1 && isCont c2 && utf8Valid rest2
      | _ => false
    else if b = 237 then
      match rest with
      | c1 :: c2 :: rest2 =>
          decide (128 ≤ c1 ∧ c1 ≤ 159) && isCont c2 && utf8Valid rest2
      | _ => false
    else if b = 240 then
      match rest with
      | c1 :: c2 :: c3 :: rest2 =>
          decide (144 ≤ c1 ∧ c1 ≤ 191) && isCont c2 && isCont c3
            && utf8Valid rest2
      | _ => false
    else if 241 ≤ b ∧ b ≤ 243 then
      match rest with
      | c1 :: c2 :: c3 :: rest2 =>
          isCont c1 && isCont c2 && isCont c3 && utf8Valid rest2
      | _ => false
    else if b = 244 then
      match rest with
      | c1 :: c2 :: c3 :: rest2 =>
          decide (128 ≤ c1 ∧ c1 ≤ 143) && isCont c2 && isCont c3
            && utf8Valid rest2
      | _ => false
    else false

/-- The `ethabi::ParamType`, restricted to the kinds this contract's event
descriptions use. -/
inductive ParamType where
  | address
  | uint (n : Nat)
  | bytes
  | string
  deriving DecidableEq, Repr

/-- The `ethabi::Token`.  `Token::String` is carried as its raw byte
content: the decoder hands the sliced bytes to `String::from_utf8`, which
is modelled as the `utf8Valid` check in `decodeParam` with the (valid)
bytes then carried through unchanged. -/
inductive Token where
  | address (a : Bytes)
  | uint (v : Nat)
  | bytes (b : Bytes)
  | string (b : Bytes)
  deriving DecidableEq, Repr

/-- The `ParamType` a token inhabits. -/
def Token.typeOf : Token → ParamType
  | .address _ => .address
  | .uint _ => .uint 256
  | .bytes _ => .bytes
  | .string _ => .string

/-- The `ParamType::is_dynamic`: `Bytes` and `String` are tail-allocated. -/
def ParamType.isDynamic : ParamType → Bool
  | .bytes => true
  | .string => true
  | _ => false

/-- Dynamic tokens get an offset word in the head area. -/
def Token.isDynamic : Token → Bool
  | .bytes _ => true
  | .string _ => true
  | _ => false

/-- The 32-byte big-endian word of `v % 2 ^ 256`. -/
def beWord (v : Nat) : Bytes :=
  (List.range 32).map fun i => v / 256 ^ (31 - i) % 256

/-- Right-pad a byte string with zeros to a multiple of 32. -/
def padRight32 (b : Bytes) : Bytes :=
  b ++ List.replicate ((32 - b.length % 32) % 32) 0

/-- Head word of a static token: addresses are left-padded with 12 zero
bytes, `Uint` is its big-endian word. -/
def tokenHeadStatic : Token → Bytes
  | .address a => List.replicate 12 0 ++ a
  | .uint v => beWord v
  | .bytes _ => []
  | .string _ => []

/-- Tail of a dynamic token: length word, then the right-padded content. -/
def tokenTail : Token → Bytes
  | .bytes b => beWord b.length ++ padRight32 b
  | .string b => beWord b.length ++ padRight32 b
  | _ => []

/-- Head word of a token, given the byte length of the whole head area and
the byte length of the tails that precede this token's tail. -/
def headWord (headLen tailLen : Nat) (t : Token) : Bytes :=
  if t.isDynamic then beWord (headLen + tailLen) else tokenHeadStatic t

/-- Per-token head words and tails of `ethabi::encode`'s head/tail scheme;
`tailLen` accumulates the bytes of tails already laid out. -/
def encodeAux (headLen : Nat) : List Token → Nat → List Bytes × List Bytes
  | [], _ => ([], [])
  | t :: rest, tailLen =>
      let (hs, tls) := encodeAux headLen rest (tailLen + (tokenTail t).length)
      (headWord headLen tailLen t :: hs, tokenTail t :: tls)

/-- The `ethabi::encode`: concatenated head words, then concatenated tails. -/
def encodeTokens (ts : List Token) : Bytes :=
  ((encodeAux (32 * ts.length) ts 0).1).flatten
    ++ ((encodeAux (32 * ts.length) ts 0).2).flatten

/-- The `peek` of `ethabi`'s decoder: the 32-byte word slice at word index `i`. -/
def peekWord (data : Bytes) (i : Nat) : Except Err Bytes :=
  if 32 * i + 32 ≤ data.length then .ok ((data.drop (32 * i)).take 32)
  else .error .invalidData

/-- The `as_u32` of `ethabi`'s decoder: the first 28 bytes of the word must be
zero; the value is the big-endian tail. -/
def asUsize (w : Bytes) : Except Err Nat :=
  if w.take 28 = List.replicate 28 0 then .ok (beNat (w.drop 28))
  else .error .invalidData

/-- The `take_bytes` of `ethabi`'s decoder: `len` bytes starting at word index
`offset`, requiring the data to hold that many whole words. -/
def takeBytes (data : Bytes) (offset len : Nat) : Except Err Bytes :=
  if data.length / 32 < offset + (len + 31) / 32 then .error .invalidData
  else .ok ((data.drop (32 * offset)).take len)

/-- The `ethabi`'s `decode_param` at word offset `off`: static kinds read their
word in place and advance one word; dynamic kinds follow the offset word to
a length-prefixed tail. -/
def decodeParam (data : Bytes) : ParamType → Nat → Except Err (Token × Nat)
  | .address, off => do
      let w ← peekWord data off
      .ok (.address (w.drop 12), off + 1)
  | .uint _, off => do
      let w ← peekWord data off
      .ok (.uint (beNat w), off + 1)
  | .bytes, off => do
      let ow ← peekWord data off
      let byteOff ← asUsize ow
      let lw ← peekWord data (byteOff / 32)
      let len ← asUsize lw
      let bs ← takeBytes data (byteOff / 32 + 1) len
      .ok (.bytes bs, off + 1)
  | .string, off => do
      let ow ← peekWord data off
      let byteOff ← asUsize ow
      let lw ← peekWord data (byteOff / 32)
      let len ← asUsize lw
      let bs ← takeBytes data (byteOff / 32 + 1) len
      if utf8Valid bs then .ok (.string bs, off + 1)
      else .error .invalidData

/-- The decoder's main loop: one token per declared kind, threading the
word offset. -/
def decodeParams (data : Bytes) : List ParamType → Nat → Except Err (List Token)
  | [], _ => .ok []
  | t :: rest, off => do
      let (tok, off2) ← decodeParam data t off
      let toks ← decodeParams data rest off2
      .ok (tok :: toks)

/-- The `ethabi::decode`: the data must consist of whole 32-byte words
(`slice_data`), then the kinds are decoded in order from word offset 0. -/
def ethabiDecode (types : List ParamType) (data : Bytes) : Except Err (List Token) :=
  if data.length % 32 = 0 then decodeParams data types 0
  else .error .invalidData

/-- Well-formed tokens: addresses are 20 bytes, `Uint` values fit a word,
dynamic contents fit the 4-byte offset/length fields the decoder reads,
and string contents are valid UTF-8 (what `String::from_utf8` accepts,
hence what an `ethabi`-encodable `Token::String` can hold). -/
def TokenWF : Token → Prop
  | .address a => a.length = 20
  | .uint v => v < 2 ^ 256
  | .bytes b => b.length < 2 ^ 32
  | .string b => b.length < 2 ^ 32 ∧ utf8Valid b = true

/-- Total byte length of the tails of a token list. -/
def sumTails (ts : List Token) : Nat :=
  (ts.map fun t => (tokenTail t).length).sum

/-- The `ethabi::EventParam`. -/
structure EventParam where
  name : String
  kind : ParamType
  indexed : Bool
  deriving DecidableEq, Repr

/-- The `ethabi::LogParam`: a named decoded value. -/
structure LogParam where
  name : String
  value : Token
  deriving DecidableEq, Repr

/-- The `ethabi::Log`: the decoded parameters, in declared order. -/
structure Log where
  params : List LogParam
  deriving DecidableEq, Repr

/-- Canonical ABI type name, as used in event signatures. -/
def paramTypeName : ParamType → String
  | .address => "address"
  | .uint n => "uint" ++ toString n
  | .bytes => "bytes"
  | .string => "string"

/-- The signature string hashed for `topics[0]`:
`name(type1,type2,...)` over all declared parameters in order. -/
def eventSignature (name : String) (inputs : List EventParam) : String :=
  name ++ "(" ++ String.intercalate "," (inputs.map fun p => paramTypeName p.kind)
    ++ ")"

/-- Lookup in the decoder's name-to-token `HashMap`, built by inserting the
topic bindings then the data bindings: a later entry overwrites an earlier
one with the same name. -/
def lookupLast (l : List (String × Token)) (n : String) : Option Token :=
  (l.reverse.find? fun e => e.1 == n).map fun e => e.2

/-- The `Event::parse_log` for a non-anonymous event (the only mode
`from_log_entry_data` builds): `topics[0]` must equal the signature hash,
the remaining topics are ABI-decoded against the indexed parameters, the
payload against the others, and the declared parameters are bound by name.
`keccak` is the hash function of the `ethabi`/`tiny-keccak` dependency,
passed in as a parameter. -/
def parseLog (keccak : String → Bytes) (name : String)
    (inputs : List EventParam) (topics : List Bytes) (data : Bytes) :
    Except Err Log := do
  let topicParams := inputs.filter fun p => p.indexed
  let dataParams := inputs.filter fun p => !p.indexed
  let t0 ← match topics.head? with
    | some t0 => Except.ok t0
    | none => .error .invalidData
  if t0 ≠ keccak (eventSignature name inputs) then .error .invalidData
  else do
    let topicTokens ← ethabiDecode (topicParams.map fun p => p.kind)
      ((topics.drop 1).flatten)
    if topicTokens.length ≠ topics.length - 1 then .error .invalidData
    else do
      let dataTokens ← ethabiDecode (dataParams.map fun p => p.kind) data
      let named := (topicParams.map fun p => p.name).zip topicTokens
        ++ (dataParams.map fun p => p.name).zip dataTokens
      let params ← inputs.mapM fun p =>
        match lookupLast named p.name with
        | some tok => Except.ok (LogParam.mk p.name tok)
        | none => (.error .invalidData : Except Err LogParam)
      .ok ⟨params⟩

/-- The `connector::prover::EthEvent`. -/
structure EthEvent where
  eth_custodian_address : Bytes
  log : Log
  deriving DecidableEq, Repr

/-- The `EthEvent::from_log_entry_data`: RLP-decode the raw log entry, then
parse it against the declared event shape. -/
def EthEvent.from_log_entry_data (keccak : String → Bytes) (name : String)
    (params : List (String × ParamType × Bool)) (data : Bytes) :
    Except Err EthEvent := do
  let inputs := params.map fun q => EventParam.mk q.1 q.2.1 q.2.2
  let entry ← rlpDecodeLogEntry data
  let log ← parseLog keccak name inputs entry.topics entry.data
  .ok ⟨entry.address, log⟩

/-- Binding of declared parameters to the indexed values and the data
values, in declared order. -/
def bindValues : List EventParam → List Token → List Token → List LogParam
  | [], _, _ => []
  | p :: rest, ivs, dvs =>
    if p.indexed then
      match ivs with
      | iv :: ivs2 => ⟨p.name, iv⟩ :: bindValues rest ivs2 dvs
      | [] => []
    else
      match dvs with
      | dv :: dvs2 => ⟨p.name, dv⟩ :: bindValues rest ivs dvs2
      | [] => []

/-- The association list `parse_log` builds. -/
def mkNamed (inputs : List EventParam) (ivs dvs : List Token) :
    List (String × Token) :=
  ((inputs.filter fun p => p.indexed).map fun p => p.name).zip ivs
    ++ ((inputs.filter fun p => !p.indexed).map fun p => p.name).zip dvs

/-- The `connector::prover::Proof`. -/
structure Proof where
  log_index : Nat
  log_entry_data : Bytes
  receipt_index : Nat
  receipt_data : Bytes
  header_data : Bytes
  proof : List Bytes
  deriving DecidableEq, Repr

/-- The persistent contract state: verifier account, trusted custodian
address, and the `UnorderedSet` of used event hashes (modelled as the list
of its members, inserted in order, no duplicates). -/
structure EthConnector where
  prover_account : AccountId
  eth_custodian_address : Bytes
  used_events : List Bytes
  deriving DecidableEq, Repr

/-- The NEAR host context a call runs in. -/
structure Env where
  predecessor_account_id : AccountId
  current_account_id : AccountId
  attached_deposit : Balance
  prepaid_gas : Nat
  deriving DecidableEq, Repr

/-- The `STORAGE_PRICE_PER_BYTE` (1e20 yoctoNEAR). -/
def STORAGE_PRICE_PER_BYTE : Balance := 100000000000000000000

/-- The `UnorderedSet::insert` on the membership model. -/
def setInsert (s : List Bytes) (k : Bytes) : List Bytes :=
  if k ∈ s then s else s ++ [k]

/-- The `validate_eth_address`: hex-decode and require exactly 20 bytes. -/
def validate_eth_address (address : String) : Except Err Bytes :=
  match hexDecode address with
  | none => .error .invalidEthAddress
  | some data => if data.length = 20 then .ok data else .error .invalidEthAddress

/-- The `ResultType` of `lib.rs`. -/
inductive ResultType where
  | Withdraw
  | Lock
  deriving DecidableEq, Repr

/-- Modelled from the spec: byte content of a decoded ABI string reused as
a NEAR account id.  The conversion lives in `connector/lock_event.rs`,
which is not under `src/`; no settled claim depends on its exact behaviour,
only on the decoded value being passed through unchanged. -/
def bytesAsAccountId (b : Bytes) : AccountId :=
  String.mk (b.map Char.ofNat)

/-- Modelled from the spec: the `Locked`-event shape decoded by
`EthLockedEvent::from_log_entry_data` (file `connector/lock_event.rs`,
not under `src/`).  Per the spec's DecodedEvent, it carries the custodian
address taken from the log entry's address field, a 128-bit amount, and a
recipient account identifier. -/
structure EthLockedEvent where
  eth_custodian_address : Bytes
  amount : Balance
  recipient : AccountId
  deriving DecidableEq, Repr

/-- Modelled from the spec: the ABI field list of the `Locked` event
(`connector/lock_event.rs` is not under `src/`): an indexed token address,
an indexed sender address, a `uint256` amount, and a string account id. -/
def EthLockedEvent.event_params : List (String × ParamType × Bool) :=
  [("token", .address, true), ("sender", .address, true),
   ("amount", .uint 256, false), ("account_id", .string, false)]

/-- Modelled from the spec: `EthLockedEvent::from_log_entry_data`
(`connector/lock_event.rs` is not under `src/`): decode the raw log entry
through `EthEvent::from_log_entry_data` (which is under `src/`), then
extract the amount (a `uint256` narrowed to 128 bits) and the recipient
account id from the named log parameters. -/
def EthLockedEvent.from_log_entry_data (keccak : String → Bytes)
    (data : Bytes) : Except Err EthLockedEvent := do
  let ev ← EthEvent.from_log_entry_data keccak "Locked"
    EthLockedEvent.event_params data
  let named := ev.log.params.map fun p => (p.name, p.value)
  let amount ← match lookupLast named "amount" with
    | some (.uint v) =>
        if v < 2 ^ 128 then Except.ok v
        else (.error .invalidData : Except Err Nat)
    | _ => (.error .invalidData : Except Err Nat)
  let recipient ← match lookupLast named "account_id" with
    | some (.string b) => Except.ok (bytesAsAccountId b)
    | _ => (.error .invalidData : Except Err AccountId)
  .ok ⟨ev.eth_custodian_address, amount, recipient⟩

/-- The `assert_self()`. -/
def assert_self (env : Env) : Except Err Unit :=
  if env.predecessor_account_id = env.current_account_id then .ok ()
  else .error .unauthorizedCallback

/-- The replay fingerprint's hash preimage: borsh-serialized `log_index`,
then borsh-serialized `receipt_index`, then `header_data`. -/
def fingerprintPreimage (p : Proof) : Bytes :=
  borshU64 p.log_index ++ (borshU64 p.receipt_index ++ p.header_data)

/-- The replay fingerprint: `env::sha256` of the preimage.  The host hash
is passed in as a parameter. -/
def proofFingerprint (sha : Bytes → Bytes) (p : Proof) : Bytes :=
  sha (fingerprintPreimage p)

/-- The `record_proof`: assert the caller is the contract itself, refuse an
already-used fingerprint, insert it, and charge the storage delta
(`env::storage_usage` is modelled by `susage`, a function of the set
contents; the checked `attached_deposit - required_deposit` subtraction
underflows — aborting the call — when the attached deposit is too small).
Returns the new state and the leftover deposit. -/
def record_proof (sha : Bytes → Bytes) (susage : List Bytes → Nat)
    (self : EthConnector) (env : Env) (proof : Proof) :
    Except Err (EthConnector × Balance) := do
  let _ ← assert_self env
  let initialStorage := susage self.used_events
  let key := proofFingerprint sha proof
  if key ∈ self.used_events then .error .proofAlreadyUsed
  else
    let used2 := setInsert self.used_events key
    let currentStorage := susage used2
    let requiredDeposit := (currentStorage - initialStorage) * STORAGE_PRICE_PER_BYTE
    if env.attached_deposit < requiredDeposit then .error .insufficientDeposit
    else .ok ({ self with used_events := used2 },
      env.attached_deposit - requiredDeposit)

/-- The `str::to_lowercase`, modelled character-wise. -/
def toLowerStr (s : String) : String := String.mk (s.data.map Char.toLower)

/-- The `get_bridge_token_account_id`: lowercase the address, validate it as an
ETH address, and build `<address>.<current_account_id>`. -/
def get_bridge_token_account_id (env : Env) (address : String) :
    Except Err AccountId := do
  let address := toLowerStr address
  let _ ← validate_eth_address address
  .ok (address ++ "." ++ env.current_account_id)

/-- The `ext_bridge_token::mint` promise `finish_deposit` schedules. -/
structure MintCall where
  target : AccountId
  account_id : AccountId
  amount : Balance
  attached_deposit : Balance
  gas : Nat
  deriving DecidableEq, Repr

/-- The `finish_deposit`: self-check, verification check, replay recording,
then the mint promise to `get_bridge_token_account_id("")`. -/
def finish_deposit (sha : Bytes → Bytes) (susage : List Bytes → Nat)
    (self : EthConnector) (env : Env) (verification_success : Bool)
    (new_owner_id : AccountId) (amount : Balance) (proof : Proof) :
    Except Err (EthConnector × MintCall) := do
  let _ ← assert_self env
  if !verification_success then .error .verificationFailed
  else do
    let (self2, _) ← record_proof sha susage self env proof
    let token := ""
    let target ← get_bridge_token_account_id env token
    .ok (self2, ⟨target, new_owner_id, amount, 0, env.prepaid_gas / 2⟩)

/-- The state after a `finish_deposit` call: a panic reverts every write of
the call, so the `.error` outcome leaves the state unchanged. -/
def finish_deposit_state (sha : Bytes → Bytes) (susage : List Bytes → Nat)
    (self : EthConnector) (env : Env) (verification_success : Bool)
    (new_owner_id : AccountId) (amount : Balance) (proof : Proof) :
    EthConnector :=
  match finish_deposit sha susage self env verification_success new_owner_id
      amount proof with
  | .ok (self2, _) => self2
  | .error _ => self

/-- The `ext_prover::verify_log_entry` promise `deposit` schedules. -/
structure VerifyCall where
  prover : AccountId
  log_index : Nat
  log_entry_data : Bytes
  receipt_index : Nat
  receipt_data : Bytes
  header_data : Bytes
  proof : List Bytes
  skip_bridge_call : Bool
  attached_deposit : Balance
  gas : Nat
  deriving DecidableEq, Repr

/-- The `finish_deposit` continuation `deposit` schedules after the
verifier call. -/
structure FinishDepositCall where
  new_owner_id : AccountId
  amount : Balance
  proof : Proof
  target : AccountId
  attached_deposit : Balance
  gas : Nat
  deriving DecidableEq, Repr

/-- The `deposit`: decode the `Locked` event from the proof's log entry,
require its custodian address to equal the configured one, then schedule
the verifier call chained into the `finish_deposit` continuation.  A
`.error` outcome schedules no call at all. -/
def deposit (keccak : String → Bytes) (self : EthConnector) (env : Env)
    (proof : Proof) :
    Except Err (EthConnector × VerifyCall × FinishDepositCall) := do
  let event ← EthLockedEvent.from_log_entry_data keccak proof.log_entry_data
  if event.eth_custodian_address ≠ self.eth_custodian_address then
    .error .custodianMismatch
  else
    .ok (self,
      ⟨self.prover_account, proof.log_index, proof.log_entry_data,
        proof.receipt_index, proof.receipt_data, proof.header_data,
        proof.proof, false, 0, env.prepaid_gas / 4⟩,
      ⟨event.recipient, event.amount, proof, env.current_account_id,
        env.attached_deposit, env.prepaid_gas / 2⟩)

/-- The state after a `deposit` call, panics reverting. -/
def deposit_state (keccak : String → Bytes) (self : EthConnector) (env : Env)
    (proof : Proof) : EthConnector :=
  match deposit keccak self env proof with
  | .ok (self2, _, _) => self2
  | .error _ => self

/-- The first dot-separated label of an account id
(`token.split(".").collect::<Vec<&str>>()[0]`). -/
def firstPart (s : String) : String :=
  String.mk (s.data.takeWhile fun c => c ≠ '.')

/-- The `finish_withdraw`: the predecessor must be `<token>.<current>` whose
first label and the `recipient` argument are valid ETH addresses; returns
the borsh tuple `(ResultType::Withdraw, amount, token_address,
recipient_address)`.  The state is returned unchanged: the method writes
no field. -/
def finish_withdraw (self : EthConnector) (env : Env) (amount : Balance)
    (recipient : String) :
    Except Err (EthConnector × (ResultType × Balance × Bytes × Bytes)) := do
  let token := env.predecessor_account_id
  if token ≠ firstPart token ++ "." ++ env.current_account_id then
    .error .notSubAccount
  else do
    let token_address ← validate_eth_address (firstPart token)
    let recipient_address ← validate_eth_address recipient
    .ok (self, (.Withdraw, amount, token_address, recipient_address))

/-- The state after a `record_proof` call, panics reverting. -/
def record_proof_state (sha : Bytes → Bytes) (susage : List Bytes → Nat)
    (self : EthConnector) (env : Env) (proof : Proof) : EthConnector :=
  match record_proof sha susage self env proof with
  | .ok (self2, _) => self2
  | .error _ => self

/-- One `record_proof`-bearing call of a call sequence. -/
def record_step (sha : Bytes → Bytes) (susage : List Bytes → Nat)
    (st : EthConnector) (c : Env × Proof) : EthConnector :=
  record_proof_state sha susage st c.1 c.2

/-- Number of calls in a sequence that successfully record the
fingerprint `F` (each success being a credit-carrying deposit). -/
def count_credits (sha : Bytes → Bytes) (susage : List Bytes → Nat)
    (F : Bytes) : EthConnector → List (Env × Proof) → Nat
  | _, [] => 0
  | st, c :: cs =>
      (if (record_proof sha susage st c.1 c.2).isOk
          ∧ proofFingerprint sha c.2 = F then 1 else 0)
        + count_credits sha susage F (record_step sha susage st c) cs

/-- A stand-in for the host keccak: maps the `Locked` signature of
`EthLockedEvent.event_params` to one 32-byte word and everything else to
another. -/
def cexKeccak : String → Bytes := fun s =>
  if s = "Locked(address,address,uint256,string)" then List.replicate 32 7
  else List.replicate 32 9

/-- A stand-in for the host sha256. -/
def cexSha : Bytes → Bytes := fun b => 99 :: b.take 31

/-- A stand-in for `env::storage_usage` as a function of the set. -/
def cexSusage : List Bytes → Nat := fun s => 40 * s.length

def cexCustodian : Bytes := List.replicate 20 1

def cexOtherCustodian : Bytes := List.replicate 20 2

def cexTokenAddr : Bytes := List.replicate 20 3

def cexSenderAddr : Bytes := List.replicate 20 4

/-- ABI payload: amount 1000, account id bytes of the string alice. -/
def cexPayload : Bytes := encodeTokens [.uint 1000, .string [97, 108, 105, 99, 101]]

def cexTopics : List Bytes :=
  [List.replicate 32 7, tokenHeadStatic (.address cexTokenAddr),
    tokenHeadStatic (.address cexSenderAddr)]

/-- A well-formed `Locked`-event log entry for custodian `cexCustodian`. -/
def cexWire : Bytes := mkLogEntryData cexCustodian cexTopics cexPayload

def cexProof : Proof := ⟨1, cexWire, 2, [9], [5, 6], [[7]]⟩

def cexEnvSelf : Env := ⟨"connector", "connector", 10 ^ 25, 300⟩

def cexEnvOther : Env := ⟨"mallory", "connector", 10 ^ 25, 300⟩

def cexState : EthConnector := ⟨"prover", cexCustodian, []⟩

def cexStateOther : EthConnector := ⟨"prover", cexOtherCustodian, []⟩

/-- The `EthLockedEvent.event_params` with its two same-typed indexed fields
transposed, topics unchanged. -/
def cexParamsPerm : List (String × ParamType × Bool) :=
  [("sender", .address, true), ("token", .address, true),
   ("amount", .uint 256, false), ("account_id", .string, false)]

/-- A second proof sharing `(log_index, receipt_index, header_data)` with
`cexProof` but differing in every other field. -/
def cexProof2 : Proof := ⟨1, [0], 2, [42], [5, 6], []⟩

/-- The `cexState` with the fingerprint of `cexProof` already recorded. -/
def cexStateUsed : EthConnector :=
  ⟨"prover", cexCustodian, [proofFingerprint cexSha cexProof]⟩

/-- A call context with no attached deposit. -/
def cexEnvPoor : Env := ⟨"connector", "connector", 0, 300⟩

/-- The `Locked` field list as `EventParam` records. -/
def cexInputs : List EventParam :=
  [⟨"token", .address, true⟩, ⟨"sender", .address, true⟩,
   ⟨"amount", .uint 256, false⟩, ⟨"account_id", .string, false⟩]

/-! ## Theorems -/

theorem natToBeBytesF_congr :
    ∀ (n fuel1 fuel2 : Nat), n ≤ fuel1 → n ≤ fuel2 →
      natToBeBytesF fuel1 n = natToBeBytesF fuel2 n := by
  intro n
  induction n using Nat.strong_induction_on with
  | _ n ih =>
    intro fuel1 fuel2 h1 h2
    match n, h1, h2 with
    | 0, _, _ =>
      match fuel1, fuel2 with
      | 0, 0 => rfl
      | 0, _ + 1 => rfl
      | _ + 1, 0 => rfl
      | _ + 1, _ + 1 => rfl
    | m + 1, h1, h2 =>
      match fuel1, fuel2, h1, h2 with
      | f1 + 1, f2 + 1, h1, h2 =>
        have hdiv : (m + 1) / 256 < m + 1 :=
          Nat.div_lt_self (by omega) (by omega)
        simp only [natToBeBytesF]
        rw [ih ((m + 1) / 256) hdiv f1 f2 (by omega) (by omega)]

/-- The defining recurrence of `natToBeBytes`. -/
theorem natToBeBytes_eq (n : Nat) :
    natToBeBytes n
      = if n = 0 then [] else natToBeBytes (n / 256) ++ [n % 256] := by
  match n with
  | 0 => rfl
  | m + 1 =>
    rw [if_neg (by omega)]
    show natToBeBytesF (m + 1) (m + 1) = _
    have hdiv : (m + 1) / 256 < m + 1 := Nat.div_lt_self (by omega) (by omega)
    simp only [natToBeBytesF]
    rw [natToBeBytesF_congr ((m + 1) / 256) m ((m + 1) / 256) (by omega)
      (Nat.le_refl _)]
    rfl

theorem borshU64_length (n : Nat) : (borshU64 n).length = 8 := rfl

/-- The `borshU64` determines its argument below `2 ^ 64`. -/
theorem borshU64_inj {m n : Nat} (hm : m < 2 ^ 64) (hn : n < 2 ^ 64)
    (h : borshU64 m = borshU64 n) : m = n := by
  simp only [borshU64, List.cons.injEq, and_true] at h
  obtain ⟨h0, h1, h2, h3, h4, h5, h6, h7⟩ := h
  norm_num at h1 h2 h3 h4 h5 h6 h7 hm hn
  omega

theorem beNat_append_singleton (a : Bytes) (x : Nat) :
    beNat (a ++ [x]) = beNat a * 256 + x := by
  simp [beNat, List.foldl_append]

theorem beNat_natToBeBytes (n : Nat) : beNat (natToBeBytes n) = n := by
  induction n using Nat.strong_induction_on with
  | _ n ih =>
    rw [natToBeBytes_eq]
    split
    · simp [beNat]; omega
    · rename_i h
      rw [beNat_append_singleton, ih _ (Nat.div_lt_self (Nat.pos_of_ne_zero h) (by omega))]
      omega

theorem natToBeBytes_ne_nil {n : Nat} (h : 0 < n) : natToBeBytes n ≠ [] := by
  rw [natToBeBytes_eq]
  split
  · omega
  · simp

theorem headD_append_of_ne_nil {a b : Bytes} {d : Nat} (h : a ≠ []) :
    (a ++ b).headD d = a.headD d := by
  cases a with
  | nil => exact absurd rfl h
  | cons x tl => rfl

theorem natToBeBytes_headD {n : Nat} (h : 0 < n) :
    (natToBeBytes n).headD 0 ≠ 0 := by
  induction n using Nat.strong_induction_on with
  | _ n ih =>
    rw [natToBeBytes_eq]
    split
    · omega
    · by_cases h256 : n < 256
      · have : n / 256 = 0 := Nat.div_eq_of_lt h256
        rw [this]
        have : natToBeBytes 0 = [] := rfl
        rw [this]
        simpa using by omega
      · have hpos : 0 < n / 256 := Nat.div_pos (by omega) (by omega)
        rw [headD_append_of_ne_nil (natToBeBytes_ne_nil hpos)]
        exact ih _ (Nat.div_lt_self h (by omega)) hpos

theorem natToBeBytes_length_le {n k : Nat} (h : n < 256 ^ k) :
    (natToBeBytes n).length ≤ k := by
  induction k generalizing n with
  | zero =>
    simp only [pow_zero, Nat.lt_one_iff] at h
    subst h
    rw [natToBeBytes_eq]
    simp
  | succ k ih =>
    rw [natToBeBytes_eq]
    split
    · simp
    · have hdiv : n / 256 < 256 ^ k := by
        rw [Nat.div_lt_iff_lt_mul (by omega)]
        calc n < 256 ^ (k + 1) := h
        _ = 256 ^ k * 256 := by ring
      simpa using ih hdiv

theorem natToBeBytes_length_pos {n : Nat} (h : 0 < n) :
    0 < (natToBeBytes n).length := by
  have := natToBeBytes_ne_nil h
  cases hb : natToBeBytes n with
  | nil => exact absurd hb this
  | cons x tl => simp

theorem rlpPayload_short_str {p rest : Bytes} (h56 : p.length < 56)
    (h1 : p.length ≠ 1) :
    rlpPayload ((128 + p.length) :: (p ++ rest)) = .ok (false, p, rest) := by
  simp only [rlpPayload]
  rw [if_neg (by omega), if_pos (by omega)]
  have hlen : 128 + p.length - 128 = p.length := by omega
  rw [hlen]
  rw [if_pos (by simp)]
  rw [List.take_left, List.drop_left]
  rw [if_neg (by simp [h1])]

theorem rlpPayload_single_small {x : Nat} {rest : Bytes} (h : x < 128) :
    rlpPayload (x :: rest) = .ok (false, [x], rest) := by
  simp only [rlpPayload]
  rw [if_pos h]

theorem rlpPayload_single_large {x : Nat} {rest : Bytes} (h : 128 ≤ x) :
    rlpPayload (129 :: (x :: rest)) = .ok (false, [x], rest) := by
  simp only [rlpPayload]
  rw [if_neg (by omega), if_pos (by omega)]
  norm_num
  intro hx
  exact absurd hx (by omega)

theorem rlpPayload_long_str {p rest : Bytes} (h56 : 56 ≤ p.length)
    (h64 : p.length < 2 ^ 64) :
    rlpPayload ((183 + (natToBeBytes p.length).length) ::
      (natToBeBytes p.length ++ (p ++ rest))) = .ok (false, p, rest) := by
  have hlb1 : 0 < (natToBeBytes p.length).length := natToBeBytes_length_pos (by omega)
  have hlb8 : (natToBeBytes p.length).length ≤ 8 :=
    natToBeBytes_length_le (by norm_num at h64 ⊢; omega)
  simp only [rlpPayload]
  rw [if_neg (by omega), if_neg (by omega), if_pos (by omega)]
  have hlen : 183 + (natToBeBytes p.length).length - 183
      = (natToBeBytes p.length).length := by omega
  rw [hlen]
  rw [if_pos (by simp)]
  rw [List.take_left, List.drop_left]
  rw [if_neg (by
    simp only [not_or, not_lt]
    exact ⟨natToBeBytes_headD (by omega), by rw [beNat_natToBeBytes]; omega⟩)]
  rw [beNat_natToBeBytes]
  rw [if_pos (by simp)]
  rw [List.take_left, List.drop_left]

theorem rlpPayload_short_list {p rest : Bytes} (h56 : p.length < 56) :
    rlpPayload ((192 + p.length) :: (p ++ rest)) = .ok (true, p, rest) := by
  simp only [rlpPayload]
  rw [if_neg (by omega), if_neg (by omega), if_neg (by omega), if_pos (by omega)]
  have hlen : 192 + p.length - 192 = p.length := by omega
  rw [hlen]
  rw [if_pos (by simp)]
  rw [List.take_left, List.drop_left]

theorem rlpPayload_long_list {p rest : Bytes} (h56 : 56 ≤ p.length)
    (h64 : p.length < 2 ^ 64) :
    rlpPayload ((247 + (natToBeBytes p.length).length) ::
      (natToBeBytes p.length ++ (p ++ rest))) = .ok (true, p, rest) := by
  have hlb1 : 0 < (natToBeBytes p.length).length := natToBeBytes_length_pos (by omega)
  have hlb8 : (natToBeBytes p.length).length ≤ 8 :=
    natToBeBytes_length_le (by norm_num at h64 ⊢; omega)
  simp only [rlpPayload]
  rw [if_neg (by omega), if_neg (by omega), if_neg (by omega), if_neg (by omega)]
  have hlen : 247 + (natToBeBytes p.length).length - 247
      = (natToBeBytes p.length).length := by omega
  rw [hlen]
  rw [if_pos (by simp)]
  rw [List.take_left, List.drop_left]
  rw [if_neg (by
    simp only [not_or, not_lt]
    exact ⟨natToBeBytes_headD (by omega), by rw [beNat_natToBeBytes]; omega⟩)]
  rw [beNat_natToBeBytes]
  rw [if_pos (by simp)]
  rw [List.take_left, List.drop_left]

theorem exceptBind_ok {ε α β : Type} (a : α) (f : α → Except ε β) :
    (Except.ok a >>= f) = f a := rfl

theorem exceptBind_err {ε α β : Type} (e : ε) (f : α → Except ε β) :
    ((Except.error e : Except ε α) >>= f) = .error e := rfl

theorem rlpEncodeBytes_ne_nil (b : Bytes) : rlpEncodeBytes b ≠ [] := by
  match b with
  | [x] =>
    simp only [rlpEncodeBytes]
    split
    · simp
    · simp [rlpEncodeLen]
  | [] => simp [rlpEncodeBytes, rlpEncodeLen]
  | x :: y :: tl =>
    simp only [rlpEncodeBytes, rlpEncodeLen]
    split
    · simp
    · simp

theorem rlpEncode_ne_nil (i : RlpItem) : rlpEncode i ≠ [] := by
  match i with
  | .str b => exact rlpEncodeBytes_ne_nil b
  | .list l =>
    simp only [rlpEncode, rlpEncodeLen]
    split
    · simp
    · simp

theorem rlpPayload_rlpEncode {i : RlpItem} (hwf : topWF i) (rest : Bytes) :
    rlpPayload (rlpEncode i ++ rest) = .ok (itemKind i, itemPayload i, rest) := by
  match i with
  | .str b =>
    simp only [topWF] at hwf
    simp only [rlpEncode, itemKind, itemPayload]
    match b with
    | [x] =>
      simp only [rlpEncodeBytes]
      split
      · rename_i hx
        exact rlpPayload_single_small hx
      · rename_i hx
        have : rlpEncodeLen 1 128 = [129] := rfl
        rw [this]
        simpa using rlpPayload_single_large (x := x) (by omega)
    | [] =>
      have h0 : rlpEncodeBytes ([] : Bytes) = [128] := rfl
      rw [h0, List.singleton_append]
      have := @rlpPayload_short_str ([] : Bytes) rest (by simp) (by simp)
      simp only [List.length_nil, Nat.add_zero, List.nil_append] at this
      exact this
    | x :: y :: tl =>
      simp only [rlpEncodeBytes, rlpEncodeLen]
      by_cases h56 : (x :: y :: tl).length < 56
      · rw [if_pos h56]
        simpa using rlpPayload_short_str (p := x :: y :: tl) h56 (by simp)
      · rw [if_neg h56]
        simpa [List.append_assoc] using
          @rlpPayload_long_str (x :: y :: tl) rest (by omega) hwf
  | .list l =>
    simp only [topWF] at hwf
    simp only [rlpEncode, itemKind, itemPayload, rlpEncodeLen]
    by_cases h56 : (rlpEncodeList l).length < 56
    · rw [if_pos h56]
      simpa using rlpPayload_short_list (p := rlpEncodeList l) h56
    · rw [if_neg h56]
      simpa [List.append_assoc] using
        @rlpPayload_long_list (rlpEncodeList l) rest (by omega) hwf

theorem rlpSplitItemsFuel_encodeList :
    ∀ (items : List RlpItem) (fuel : Nat), (∀ i ∈ items, topWF i) →
      (rlpEncodeList items).length ≤ fuel →
      rlpSplitItemsFuel fuel (rlpEncodeList items)
        = .ok (items.map fun i => (itemKind i, itemPayload i)) := by
  intro items
  induction items with
  | nil => intro fuel _ _; simp [rlpEncodeList, rlpSplitItemsFuel]
  | cons i rest ih =>
    intro fuel hwf hfuel
    have hne : rlpEncode i ≠ [] := rlpEncode_ne_nil i
    have hlen1 : 1 ≤ (rlpEncode i).length := by
      cases he : rlpEncode i with
      | nil => exact absurd he hne
      | cons a b => simp
    have hlentot : (rlpEncodeList (i :: rest)).length
        = (rlpEncode i).length + (rlpEncodeList rest).length := by
      simp [rlpEncodeList]
    match fuel with
    | 0 => omega
    | f + 1 =>
      have hcons : ∃ c tl, rlpEncodeList (i :: rest) = c :: tl := by
        rw [rlpEncodeList]
        cases he : rlpEncode i with
        | nil => exact absurd he hne
        | cons a b => exact ⟨a, b ++ rlpEncodeList rest, by simp⟩
      obtain ⟨c, tl, hct⟩ := hcons
      rw [hct]
      have hpay : rlpPayload (c :: tl) = .ok (itemKind i, itemPayload i, rlpEncodeList rest) := by
        rw [← hct, rlpEncodeList]
        exact rlpPayload_rlpEncode (hwf i (by simp)) _
      simp only [rlpSplitItemsFuel, hpay, exceptBind_ok]
      rw [ih f (fun j hj => hwf j (by simp [hj])) (by omega)]
      rfl

theorem rlpSplitItems_encodeList {items : List RlpItem}
    (hwf : ∀ i ∈ items, topWF i) :
    rlpSplitItems (rlpEncodeList items)
      = .ok (items.map fun i => (itemKind i, itemPayload i)) :=
  rlpSplitItemsFuel_encodeList items _ hwf le_rfl

/-- The `mapM` over `Except` succeeds pointwise. -/
theorem mapM_ok_of_forall {α β : Type} (xs : List α) (f : α → Except Err β)
    (g : α → β) (h : ∀ x ∈ xs, f x = .ok (g x)) :
    xs.mapM f = .ok (xs.map g) := by
  induction xs with
  | nil => rfl
  | cons x tl ih =>
    rw [List.mapM_cons, h x (by simp)]
    rw [ih (fun y hy => h y (by simp [hy]))]
    rfl

theorem rlpEncodeLen_length_le {len off : Nat} (h : len < 2 ^ 64) :
    (rlpEncodeLen len off).length ≤ 9 := by
  rw [rlpEncodeLen]
  split
  · simp
  · have : (natToBeBytes len).length ≤ 8 :=
      natToBeBytes_length_le (by norm_num at h ⊢; omega)
    simp
    omega

theorem rlpEncodeBytes_length_le {b : Bytes} (h : b.length < 2 ^ 64) :
    (rlpEncodeBytes b).length ≤ 9 + b.length := by
  match b with
  | [x] =>
    simp only [rlpEncodeBytes]
    split
    · simp
    · have := @rlpEncodeLen_length_le 1 128 (by norm_num)
      simp at this ⊢
      omega
  | [] =>
    have := @rlpEncodeLen_length_le 0 128 (by norm_num)
    simp [rlpEncodeBytes]
    omega
  | x :: y :: tl =>
    have h2 : (x :: y :: tl).length < 2 ^ 64 := h
    have := @rlpEncodeLen_length_le (x :: y :: tl).length 128 h2
    simp only [rlpEncodeBytes]
    simp at this ⊢
    omega

theorem rlpEncode_str32 {t : Bytes} (h : t.length = 32) :
    rlpEncode (.str t) = 160 :: t := by
  match t, h with
  | x :: y :: tl, h =>
    simp only [rlpEncode, rlpEncodeBytes, rlpEncodeLen]
    rw [if_pos (by omega)]
    simp at h
    simp [h]

theorem rlpEncodeList_map_str_length {topics : List Bytes}
    (h : ∀ t ∈ topics, t.length = 32) :
    (rlpEncodeList (topics.map .str)).length = 33 * topics.length := by
  induction topics with
  | nil => simp [rlpEncodeList]
  | cons t tl ih =>
    simp only [List.map_cons, rlpEncodeList, List.length_append]
    rw [rlpEncode_str32 (h t (by simp)), ih (fun u hu => h u (by simp [hu]))]
    simp [h t (by simp)]
    ring

/-- Decoding recovers a log entry built from known
`(address, topics, payload)` fields. -/
theorem rlpDecodeLogEntry_mk {addr dat : Bytes} {topics : List Bytes}
    (haddr : addr.length = 20) (htop : ∀ t ∈ topics, t.length = 32)
    (hk : topics.length ≤ 2 ^ 56) (hd : dat.length ≤ 2 ^ 62) :
    rlpDecodeLogEntry (mkLogEntryData addr topics dat)
      = .ok ⟨addr, topics, dat⟩ := by
  have hqlen : (rlpEncodeList (topics.map .str)).length = 33 * topics.length :=
    rlpEncodeList_map_str_length htop
  have hq64 : (rlpEncodeList (topics.map .str)).length < 2 ^ 64 := by
    rw [hqlen]
    calc 33 * topics.length ≤ 33 * 2 ^ 56 := by
            exact Nat.mul_le_mul_left 33 hk
    _ < 2 ^ 64 := by norm_num
  have heA : rlpEncode (.str addr) = 148 :: addr := by
    match addr, haddr with
    | x :: y :: tl, haddr =>
      simp only [rlpEncode, rlpEncodeBytes, rlpEncodeLen]
      rw [if_pos (by omega)]
      simp at haddr
      simp [haddr]
  have heT_le : (rlpEncode (.list (topics.map .str))).length
      ≤ 9 + 33 * topics.length := by
    simp only [rlpEncode, List.length_append]
    have := @rlpEncodeLen_length_le _ 192 hq64
    omega
  have heD_le : (rlpEncodeBytes dat).length ≤ 9 + dat.length :=
    rlpEncodeBytes_length_le (by norm_num at hd ⊢; omega)
  have hPdef : rlpEncodeList [.str addr, .list (topics.map .str), .str dat]
      = rlpEncode (.str addr) ++ (rlpEncode (.list (topics.map .str))
        ++ (rlpEncode (.str dat) ++ [])) := by
    simp [rlpEncodeList]
  have hP64 : (rlpEncodeList [.str addr, .list (topics.map .str), .str dat]).length
      < 2 ^ 64 := by
    rw [hPdef]
    simp only [List.length_append, List.length_nil]
    have h33 : 33 * topics.length ≤ 33 * 2 ^ 56 := Nat.mul_le_mul_left 33 hk
    have : (rlpEncode (.str dat)).length ≤ 9 + dat.length := heD_le
    rw [heA]
    simp at this ⊢
    norm_num at hd
    omega
  have htopPay : rlpPayload (mkLogEntryData addr topics dat)
      = .ok (true, rlpEncodeList [.str addr, .list (topics.map .str), .str dat], []) := by
    have := @rlpPayload_rlpEncode (mkLogEntryItem addr topics dat) hP64 []
    simpa [mkLogEntryData, mkLogEntryItem, itemKind, itemPayload] using this
  have h0 : rlpPayload (rlpEncodeList [.str addr, .list (topics.map .str), .str dat])
      = .ok (false, addr,
          rlpEncode (.list (topics.map .str)) ++ (rlpEncode (.str dat) ++ [])) := by
    rw [hPdef]
    have hwf0 : topWF (.str addr) := by
      simp only [topWF, haddr]
      norm_num
    have := @rlpPayload_rlpEncode (.str addr) hwf0
      (rlpEncode (.list (topics.map .str)) ++ (rlpEncode (.str dat) ++ []))
    simpa [itemKind, itemPayload] using this
  have h1 : rlpPayload
        (rlpEncode (.list (topics.map .str)) ++ (rlpEncode (.str dat) ++ []))
      = .ok (true, rlpEncodeList (topics.map .str), rlpEncode (.str dat) ++ []) := by
    have := @rlpPayload_rlpEncode (.list (topics.map .str)) hq64
      (rlpEncode (.str dat) ++ [])
    simpa [itemKind, itemPayload] using this
  have h2 : rlpPayload (rlpEncode (.str dat) ++ []) = .ok (false, dat, []) := by
    have hwf2 : topWF (.str dat) := by
      simp only [topWF]
      norm_num at hd ⊢
      omega
    have := @rlpPayload_rlpEncode (.str dat) hwf2 []
    simpa [itemKind, itemPayload] using this
  have hsplitTopics : rlpSplitItems (rlpEncodeList (topics.map .str))
      = .ok (topics.map fun t => (false, t)) := by
    rw [rlpSplitItems_encodeList (by
      intro i hi
      simp only [List.mem_map] at hi
      obtain ⟨t, ht, rfl⟩ := hi
      simpa [topWF, htop t ht] using by norm_num)]
    simp [itemKind, itemPayload]
  have hmapM : (topics.map fun t => (false, t)).mapM (fun it =>
        if it.1 = false ∧ it.2.length = 32 then .ok it.2
        else (.error .invalidRlp : Except Err Bytes))
      = .ok topics := by
    have := mapM_ok_of_forall (topics.map fun t => (false, t))
      (fun it => if it.1 = false ∧ it.2.length = 32 then .ok it.2
        else (.error .invalidRlp : Except Err Bytes))
      (fun it => it.2)
      (by
        intro x hx
        simp only [List.mem_map] at hx
        obtain ⟨t, ht, rfl⟩ := hx
        simp [htop t ht])
    rw [this]
    simp
  simp only [rlpDecodeLogEntry, htopPay, exceptBind_ok, h0, h1, h2, haddr,
    hsplitTopics, hmapM]
  simp

theorem beWord_length (v : Nat) : (beWord v).length = 32 := by
  simp [beWord]

theorem range32_eq : List.range 32 =
    [0, 1, 2, 3, 4, 5, 6, 7, 8, 9, 10, 11, 12, 13, 14, 15, 16, 17, 18, 19,
     20, 21, 22, 23, 24, 25, 26, 27, 28, 29, 30, 31] := rfl

theorem beNat_digits :
    ∀ (k v : Nat),
      beNat ((List.range k).map fun i => v / 256 ^ (k - 1 - i) % 256)
        = v % 256 ^ k := by
  intro k
  induction k with
  | zero => intro v; simp [beNat, Nat.mod_one]
  | succ k ih =>
    intro v
    rw [List.range_succ, List.map_append]
    have hlast : (List.map (fun i => v / 256 ^ (k + 1 - 1 - i) % 256) [k])
        = [v % 256] := by
      simp only [List.map_cons, List.map_nil]
      congr 1
      have : k + 1 - 1 - k = 0 := by omega
      rw [this]
      simp
    rw [hlast]
    have hmap : (List.range k).map (fun i => v / 256 ^ (k + 1 - 1 - i) % 256)
        = (List.range k).map (fun i => v / 256 / 256 ^ (k - 1 - i) % 256) := by
      apply List.map_congr_left
      intro i hi
      simp only [List.mem_range] at hi
      have he : k + 1 - 1 - i = (k - 1 - i) + 1 := by omega
      rw [he, pow_succ', Nat.div_div_eq_div_mul]
    rw [hmap, beNat_append_singleton, ih (v / 256)]
    have : (256 : Nat) ^ (k + 1) = 256 * 256 ^ k := pow_succ' 256 k
    rw [this, Nat.mod_mul]
    ring

theorem beNat_beWord {v : Nat} (h : v < 2 ^ 256) : beNat (beWord v) = v := by
  have h32 : ∀ i : Nat, 32 - 1 - i = 31 - i := by intro i; omega
  have := beNat_digits 32 v
  simp only [h32] at this
  rw [beWord, this, Nat.mod_eq_of_lt (by norm_num at h ⊢; omega)]

theorem asUsize_beWord {x : Nat} (h : x < 2 ^ 32) : asUsize (beWord x) = .ok x := by
  have htake : (beWord x).take 28 = List.replicate 28 0 := by
    rw [beWord, ← List.map_take, List.take_range]
    have hmin : min 28 32 = 28 := by norm_num
    rw [hmin]
    apply List.eq_replicate_of_mem
    intro b hb
    simp only [List.mem_map, List.mem_range] at hb
    obtain ⟨i, hi, rfl⟩ := hb
    have hle : 2 ^ 32 ≤ 256 ^ (31 - i) := by
      calc (2 : Nat) ^ 32 = 256 ^ 4 := by norm_num
      _ ≤ 256 ^ (31 - i) := Nat.pow_le_pow_right (by omega) (by omega)
    rw [Nat.div_eq_of_lt (by omega)]
  have hdrop : (beWord x).drop 28
      = [x / 256 ^ 3 % 256, x / 256 ^ 2 % 256, x / 256 % 256, x % 256] := by
    rw [beWord, ← List.map_drop]
    have : (List.range 32).drop 28 = [28, 29, 30, 31] := rfl
    rw [this]
    simp only [List.map_cons, List.map_nil]
    norm_num
  rw [asUsize, if_pos htake, hdrop]
  simp only [beNat, List.foldl_cons, List.foldl_nil]
  norm_num at h ⊢
  omega

theorem padRight32_length (b : Bytes) :
    (padRight32 b).length = 32 * ((b.length + 31) / 32) := by
  simp only [padRight32, List.length_append, List.length_replicate]
  omega

theorem tokenTail_length_mod (t : Token) : (tokenTail t).length % 32 = 0 := by
  match t with
  | .address a => simp [tokenTail]
  | .uint v => simp [tokenTail]
  | .bytes b =>
    simp only [tokenTail, List.length_append, beWord_length, padRight32_length]
    omega
  | .string b =>
    simp only [tokenTail, List.length_append, beWord_length, padRight32_length]
    omega

theorem sumTails_mod (ts : List Token) : sumTails ts % 32 = 0 := by
  induction ts with
  | nil => simp [sumTails]
  | cons t tl ih =>
    simp only [sumTails, List.map_cons, List.sum_cons] at ih ⊢
    have := tokenTail_length_mod t
    omega

theorem sumTails_cons (t : Token) (ts : List Token) :
    sumTails (t :: ts) = (tokenTail t).length + sumTails ts := by
  simp [sumTails]

theorem sumTails_append (a b : List Token) :
    sumTails (a ++ b) = sumTails a + sumTails b := by
  simp [sumTails]

theorem headWord_length {t : Token} (hwf : TokenWF t) (H acc : Nat) :
    (headWord H acc t).length = 32 := by
  match t with
  | .address a =>
    simp only [TokenWF] at hwf
    simp [headWord, Token.isDynamic, tokenHeadStatic, hwf]
  | .uint v => simp [headWord, Token.isDynamic, tokenHeadStatic, beWord_length]
  | .bytes b => simp [headWord, Token.isDynamic, beWord_length]
  | .string b => simp [headWord, Token.isDynamic, beWord_length]

theorem encodeAux_snd (H : Nat) :
    ∀ (ts : List Token) (acc : Nat), (encodeAux H ts acc).2 = ts.map tokenTail := by
  intro ts
  induction ts with
  | nil => intro acc; rfl
  | cons t tl ih =>
    intro acc
    simp only [encodeAux, List.map_cons]
    rw [← ih (acc + (tokenTail t).length)]

theorem encodeAux_fst_length (H : Nat) :
    ∀ (ts : List Token) (acc : Nat), (encodeAux H ts acc).1.length = ts.length := by
  intro ts
  induction ts with
  | nil => intro acc; rfl
  | cons t tl ih =>
    intro acc
    simp only [encodeAux, List.length_cons]
    rw [← ih (acc + (tokenTail t).length)]

theorem encodeAux_fst_append (H : Nat) :
    ∀ (pre post : List Token) (acc : Nat),
      (encodeAux H (pre ++ post) acc).1
        = (encodeAux H pre acc).1 ++ (encodeAux H post (acc + sumTails pre)).1 := by
  intro pre
  induction pre with
  | nil =>
    intro post acc
    simp [encodeAux, sumTails]
  | cons t tl ih =>
    intro post acc
    simp only [List.cons_append, encodeAux, sumTails_cons, List.append_eq]
    rw [ih post (acc + (tokenTail t).length), Nat.add_assoc]

theorem encodeAux_heads_wf (H : Nat) :
    ∀ (ts : List Token) (acc : Nat), (∀ t ∈ ts, TokenWF t) →
      ∀ b ∈ (encodeAux H ts acc).1, b.length = 32 := by
  intro ts
  induction ts with
  | nil => intro acc _ b hb; simp [encodeAux] at hb
  | cons t tl ih =>
    intro acc hwf b hb
    simp only [encodeAux, List.mem_cons] at hb
    rcases hb with rfl | hb
    · exact headWord_length (hwf t (by simp)) H acc
    · exact ih _ (fun u hu => hwf u (by simp [hu])) b hb

theorem flatten_length_words {hs : List Bytes} (h : ∀ b ∈ hs, b.length = 32) :
    hs.flatten.length = 32 * hs.length := by
  induction hs with
  | nil => simp
  | cons b tl ih =>
    simp only [List.flatten_cons, List.length_append, List.length_cons]
    rw [h b (by simp), ih (fun u hu => h u (by simp [hu]))]
    ring

theorem flatten_sum_length (tls : List Bytes) :
    tls.flatten.length = (tls.map List.length).sum := List.length_join tls

theorem encodeAux_cons (H : Nat) (t : Token) (ts : List Token) (acc : Nat) :
    (encodeAux H (t :: ts) acc).1
      = headWord H acc t :: (encodeAux H ts (acc + (tokenTail t).length)).1 := by
  simp [encodeAux]

theorem tails_flatten_length (ts : List Token) :
    (ts.map tokenTail).flatten.length = sumTails ts := by
  rw [flatten_sum_length, List.map_map]
  rfl

theorem encodeTokens_length {ts : List Token} (hwf : ∀ u ∈ ts, TokenWF u) :
    (encodeTokens ts).length = 32 * ts.length + sumTails ts := by
  rw [encodeTokens]
  simp only [List.length_append]
  rw [flatten_length_words (encodeAux_heads_wf _ ts 0 hwf),
    encodeAux_fst_length, encodeAux_snd, tails_flatten_length]

/-- The head word of the token at index `pre.length` sits at word offset
`pre.length` of the encoding. -/
theorem peekWord_encode_head {ts pre post : List Token} {t : Token}
    (hts : ts = pre ++ t :: post) (hwf : ∀ u ∈ ts, TokenWF u) :
    peekWord (encodeTokens ts) pre.length
      = .ok (headWord (32 * ts.length) (sumTails pre) t) := by
  have hwfpre : ∀ u ∈ pre, TokenWF u := fun u hu => hwf u (by simp [hts, hu])
  have hwft : TokenWF t := hwf t (by simp [hts])
  have hheads : (encodeAux (32 * ts.length) ts 0).1
      = (encodeAux (32 * ts.length) pre 0).1
        ++ (headWord (32 * ts.length) (sumTails pre) t
          :: (encodeAux (32 * ts.length) post
                (sumTails pre + (tokenTail t).length)).1) := by
    rw [hts, encodeAux_fst_append, encodeAux_cons]
    simp
  have hApre_len : ((encodeAux (32 * ts.length) pre 0).1).flatten.length
      = 32 * pre.length := by
    rw [flatten_length_words (encodeAux_heads_wf _ pre 0 hwfpre),
      encodeAux_fst_length]
  have hfull : encodeTokens ts
      = ((encodeAux (32 * ts.length) pre 0).1).flatten
        ++ (headWord (32 * ts.length) (sumTails pre) t
          ++ (((encodeAux (32 * ts.length) post
                (sumTails pre + (tokenTail t).length)).1).flatten
            ++ (ts.map tokenTail).flatten)) := by
    rw [encodeTokens]
    rw [encodeAux_snd]
    rw [hheads, List.flatten_append, List.flatten_cons]
    simp [List.append_assoc]
  have hlen : (encodeTokens ts).length = 32 * ts.length + sumTails ts :=
    encodeTokens_length hwf
  have hklt : pre.length < ts.length := by
    rw [hts]
    simp
  rw [peekWord, if_pos (by rw [hlen]; omega)]
  rw [hfull, List.drop_left' hApre_len,
    List.take_left' (headWord_length hwft _ _)]

/-- Dropping the head area and the preceding tails lands on the tail of the
token at index `pre.length`. -/
theorem drop_encode_tail {ts pre post : List Token} {t : Token}
    (hts : ts = pre ++ t :: post) (hwf : ∀ u ∈ ts, TokenWF u) :
    (encodeTokens ts).drop (32 * ts.length + sumTails pre)
      = tokenTail t ++ (post.map tokenTail).flatten := by
  have hheads_len : ((encodeAux (32 * ts.length) ts 0).1).flatten.length
      = 32 * ts.length := by
    rw [flatten_length_words (encodeAux_heads_wf _ ts 0 hwf),
      encodeAux_fst_length]
  have htails : (ts.map tokenTail).flatten
      = (pre.map tokenTail).flatten
        ++ (tokenTail t ++ (post.map tokenTail).flatten) := by
    rw [hts]
    simp [List.flatten_append]
  have hpre_len : ((pre.map tokenTail).flatten).length = sumTails pre :=
    tails_flatten_length pre
  rw [encodeTokens]
  rw [encodeAux_snd]
  rw [← List.drop_drop]
  rw [List.drop_left' hheads_len]
  rw [htails, List.drop_left' hpre_len]

/-- The `decode_param` recovers the token at index `pre.length` from the
encoding of the whole list. -/
theorem decodeParam_encode {ts pre post : List Token} {t : Token}
    (hts : ts = pre ++ t :: post) (hwf : ∀ u ∈ ts, TokenWF u)
    (hsize : 32 * ts.length + sumTails ts < 2 ^ 32) :
    decodeParam (encodeTokens ts) t.typeOf pre.length
      = .ok (t, pre.length + 1) := by
  have hwft : TokenWF t := hwf t (by simp [hts])
  have hpeek := peekWord_encode_head hts hwf
  have hlen : (encodeTokens ts).length = 32 * ts.length + sumTails ts :=
    encodeTokens_length hwf
  have hsum_decomp : sumTails ts
      = sumTails pre + ((tokenTail t).length + sumTails post) := by
    rw [hts, sumTails_append, sumTails_cons]
  have haccmod : sumTails pre % 32 = 0 := sumTails_mod pre
  have hpostmod : sumTails post % 32 = 0 := sumTails_mod post
  match t with
  | .address a =>
    simp only [TokenWF] at hwft
    simp only [Token.typeOf, decodeParam, hpeek, exceptBind_ok]
    simp only [headWord, Token.isDynamic, Bool.false_eq_true, if_false,
      tokenHeadStatic]
    rw [List.drop_left' (by simp)]
  | .uint v =>
    simp only [TokenWF] at hwft
    simp only [Token.typeOf, decodeParam, hpeek, exceptBind_ok]
    simp only [headWord, Token.isDynamic, Bool.false_eq_true, if_false,
      tokenHeadStatic]
    rw [beNat_beWord hwft]
  | .bytes b =>
    simp only [TokenWF] at hwft
    have htail_len : (tokenTail (.bytes b)).length
        = 32 + 32 * ((b.length + 31) / 32) := by
      simp only [tokenTail, List.length_append, beWord_length, padRight32_length]
    have hoffmod : (32 * ts.length + sumTails pre) % 32 = 0 := by omega
    have hofflt : 32 * ts.length + sumTails pre < 2 ^ 32 := by omega
    simp only [Token.typeOf, decodeParam, hpeek, exceptBind_ok]
    simp only [headWord, Token.isDynamic, if_true]
    rw [asUsize_beWord hofflt]
    simp only [exceptBind_ok]
    have hdivmul : 32 * ((32 * ts.length + sumTails pre) / 32)
        = 32 * ts.length + sumTails pre := by omega
    have hdroptail := drop_encode_tail hts hwf
    rw [peekWord, if_pos (by rw [hlen]; omega)]
    rw [hdivmul, hdroptail]
    simp only [tokenTail]
    rw [List.append_assoc, List.take_left' (beWord_length b.length)]
    simp only [exceptBind_ok]
    rw [asUsize_beWord hwft]
    simp only [exceptBind_ok]
    rw [takeBytes, if_neg (by
      rw [hlen]
      simp only [not_lt]
      omega)]
    have h32succ : 32 * ((32 * ts.length + sumTails pre) / 32 + 1)
        = 32 * ts.length + sumTails pre + 32 := by omega
    rw [h32succ]
    have : (encodeTokens ts).drop (32 * ts.length + sumTails pre + 32)
        = padRight32 b ++ (post.map tokenTail).flatten := by
      rw [← List.drop_drop, hdroptail]
      simp only [tokenTail]
      rw [List.append_assoc, List.drop_left' (beWord_length b.length)]
    rw [this, padRight32, List.append_assoc, List.take_left' rfl]
    rfl
  | .string b =>
    simp only [TokenWF] at hwft
    have htail_len : (tokenTail (.string b)).length
        = 32 + 32 * ((b.length + 31) / 32) := by
      simp only [tokenTail, List.length_append, beWord_length, padRight32_length]
    have hoffmod : (32 * ts.length + sumTails pre) % 32 = 0 := by omega
    have hofflt : 32 * ts.length + sumTails pre < 2 ^ 32 := by omega
    simp only [Token.typeOf, decodeParam, hpeek, exceptBind_ok]
    simp only [headWord, Token.isDynamic, if_true]
    rw [asUsize_beWord hofflt]
    simp only [exceptBind_ok]
    have hdivmul : 32 * ((32 * ts.length + sumTails pre) / 32)
        = 32 * ts.length + sumTails pre := by omega
    have hdroptail := drop_encode_tail hts hwf
    rw [peekWord, if_pos (by rw [hlen]; omega)]
    rw [hdivmul, hdroptail]
    simp only [tokenTail]
    rw [List.append_assoc, List.take_left' (beWord_length b.length)]
    simp only [exceptBind_ok]
    rw [asUsize_beWord hwft.1]
    simp only [exceptBind_ok]
    rw [takeBytes, if_neg (by
      rw [hlen]
      simp only [not_lt]
      omega)]
    have h32succ : 32 * ((32 * ts.length + sumTails pre) / 32 + 1)
        = 32 * ts.length + sumTails pre + 32 := by omega
    rw [h32succ]
    have : (encodeTokens ts).drop (32 * ts.length + sumTails pre + 32)
        = padRight32 b ++ (post.map tokenTail).flatten := by
      rw [← List.drop_drop, hdroptail]
      simp only [tokenTail]
      rw [List.append_assoc, List.drop_left' (beWord_length b.length)]
    rw [this, padRight32, List.append_assoc, List.take_left' rfl]
    simp only [exceptBind_ok]
    rw [if_pos hwft.2]

/-- The decoder loop recovers any suffix of the token list, starting at its
word offset. -/
theorem decodeParams_encode_suffix :
    ∀ (post pre ts : List Token), ts = pre ++ post →
      (∀ u ∈ ts, TokenWF u) → 32 * ts.length + sumTails ts < 2 ^ 32 →
      decodeParams (encodeTokens ts) (post.map Token.typeOf) pre.length
        = .ok post := by
  intro post
  induction post with
  | nil => intro pre ts _ _ _; rfl
  | cons t post2 ih =>
    intro pre ts hts hwf hsize
    simp only [List.map_cons, decodeParams]
    rw [decodeParam_encode hts hwf hsize]
    simp only [exceptBind_ok]
    have := ih (pre ++ [t]) ts (by rw [hts]; simp) hwf hsize
    simp only [List.length_append, List.length_cons, List.length_nil] at this
    rw [this]
    rfl

/-- The `ethabi::decode` inverts `ethabi::encode` on well-formed token lists
whose encoding fits the decoder's 4-byte offset fields. -/
theorem ethabiDecode_encodeTokens {ts : List Token}
    (hwf : ∀ u ∈ ts, TokenWF u)
    (hsize : 32 * ts.length + sumTails ts < 2 ^ 32) :
    ethabiDecode (ts.map Token.typeOf) (encodeTokens ts) = .ok ts := by
  rw [ethabiDecode, if_pos (by
    rw [encodeTokens_length hwf]
    have := sumTails_mod ts
    omega)]
  exact decodeParams_encode_suffix ts [] ts rfl hwf hsize

theorem lookupLast_cons_ne {n2 : String} {v : Token}
    {L : List (String × Token)} {n : String} (h : n ≠ n2) :
    lookupLast ((n2, v) :: L) n = lookupLast L n := by
  simp only [lookupLast, List.reverse_cons, List.find?_append]
  have hone : List.find? (fun e => e.1 == n) [(n2, v)] = none := by
    have hbeq : (n2 == n) = false := beq_eq_false_iff_ne.2 (Ne.symm h)
    simp [List.find?, hbeq]
  rw [hone]
  simp

theorem lookupLast_middle_ne {n2 : String} {v : Token}
    {A B : List (String × Token)} {n : String} (h : n ≠ n2) :
    lookupLast (A ++ (n2, v) :: B) n = lookupLast (A ++ B) n := by
  simp only [lookupLast, List.reverse_append, List.reverse_cons,
    List.find?_append, List.append_assoc]
  have hone : List.find? (fun e => e.1 == n) [(n2, v)] = none := by
    have hbeq : (n2 == n) = false := beq_eq_false_iff_ne.2 (Ne.symm h)
    simp [List.find?, hbeq]
  rw [hone]
  simp

theorem lookupLast_cons_hit {n : String} {v : Token}
    {L : List (String × Token)} (h : ∀ e ∈ L, e.1 ≠ n) :
    lookupLast ((n, v) :: L) n = some v := by
  simp only [lookupLast, List.reverse_cons, List.find?_append]
  have hnone : List.find? (fun e => e.1 == n) L.reverse = none := by
    rw [List.find?_eq_none]
    intro e he
    simp only [beq_iff_eq]
    exact h e (List.mem_reverse.1 he)
  rw [hnone]
  simp [List.find?]

theorem lookupLast_middle_hit {n : String} {v : Token}
    {A B : List (String × Token)} (hA : ∀ e ∈ A, e.1 ≠ n)
    (hB : ∀ e ∈ B, e.1 ≠ n) :
    lookupLast (A ++ (n, v) :: B) n = some v := by
  simp only [lookupLast, List.reverse_append, List.reverse_cons,
    List.find?_append, List.append_assoc]
  have hBnone : List.find? (fun e => e.1 == n) B.reverse = none := by
    rw [List.find?_eq_none]
    intro e he
    simp only [beq_iff_eq]
    exact hB e (List.mem_reverse.1 he)
  have hAnone : List.find? (fun e => e.1 == n) A.reverse = none := by
    rw [List.find?_eq_none]
    intro e he
    simp only [beq_iff_eq]
    exact hA e (List.mem_reverse.1 he)
  rw [hBnone]
  simp [List.find?, hAnone]

theorem mapM_congr_except {α β : Type} (l : List α)
    (f g : α → Except Err β) (h : ∀ x ∈ l, f x = g x) :
    l.mapM f = l.mapM g := by
  induction l with
  | nil => rfl
  | cons x tl ih =>
    rw [List.mapM_cons, List.mapM_cons, h x (by simp),
      ih fun y hy => h y (by simp [hy])]

/-- Every name in the association list comes from the declared inputs. -/
theorem mkNamed_names {inputs : List EventParam} {ivs dvs : List Token}
    {e : String × Token} (he : e ∈ mkNamed inputs ivs dvs) :
    ∃ p ∈ inputs, p.name = e.1 := by
  simp only [mkNamed, List.mem_append] at he
  rcases he with he | he
  · obtain ⟨h1, _⟩ := List.of_mem_zip he
    simp only [List.mem_map] at h1
    obtain ⟨p, hp, hpe⟩ := h1
    exact ⟨p, List.mem_of_mem_filter hp, hpe⟩
  · obtain ⟨h1, _⟩ := List.of_mem_zip he
    simp only [List.mem_map] at h1
    obtain ⟨p, hp, hpe⟩ := h1
    exact ⟨p, List.mem_of_mem_filter hp, hpe⟩

theorem mkNamed_name_ne {rest : List EventParam} {ivs dvs : List Token}
    {n : String} (h : ∀ q ∈ rest, q.name ≠ n) :
    ∀ e ∈ mkNamed rest ivs dvs, e.1 ≠ n := by
  intro e he
  obtain ⟨q, hq, hqe⟩ := mkNamed_names he
  rw [← hqe]
  exact h q hq

/-- With distinct declared names and matching arities, the `HashMap`
lookup pass binds exactly the positional values, in declared order. -/
theorem mapM_lookup_bind :
    ∀ (inputs : List EventParam) (ivs dvs : List Token),
      ((inputs.map fun p => p.name).Nodup) →
      (inputs.filter fun p => p.indexed).length = ivs.length →
      (inputs.filter fun p => !p.indexed).length = dvs.length →
      (inputs.mapM fun p =>
          match lookupLast (mkNamed inputs ivs dvs) p.name with
          | some tok => Except.ok (LogParam.mk p.name tok)
          | none => (.error .invalidData : Except Err LogParam))
        = .ok (bindValues inputs ivs dvs) := by
  intro inputs
  induction inputs with
  | nil => intro ivs dvs _ _ _; rfl
  | cons p rest ih =>
    intro ivs dvs hnodup hT hD
    have hpname : ∀ q ∈ rest, q.name ≠ p.name := by
      intro q hq heq
      simp only [List.map_cons, List.nodup_cons, List.mem_map] at hnodup
      exact hnodup.1 ⟨q, hq, heq⟩
    have hrest_nodup : (rest.map fun p => p.name).Nodup := by
      simp only [List.map_cons, List.nodup_cons] at hnodup
      exact hnodup.2
    by_cases hpi : p.indexed
    · match ivs, hT with
      | iv :: ivs2, hT =>
        have hmk : mkNamed (p :: rest) (iv :: ivs2) dvs
            = (p.name, iv) :: mkNamed rest ivs2 dvs := by
          simp [mkNamed, List.filter_cons, hpi]
        rw [hmk, List.mapM_cons]
        rw [lookupLast_cons_hit (mkNamed_name_ne hpname)]
        rw [mapM_congr_except rest _
          (fun q => match lookupLast (mkNamed rest ivs2 dvs) q.name with
            | some tok => Except.ok (LogParam.mk q.name tok)
            | none => (.error .invalidData : Except Err LogParam))
          (fun q hq => by rw [lookupLast_cons_ne (hpname q hq)])]
        rw [ih ivs2 dvs hrest_nodup
          (by rw [List.filter_cons_of_pos (by simp [hpi])] at hT; simpa using hT)
          (by rw [List.filter_cons_of_neg (by simp [hpi])] at hD; exact hD)]
        simp only [bindValues, hpi, if_true]
        rfl
      | [], hT =>
        rw [List.filter_cons_of_pos (by simp [hpi])] at hT
        simp at hT
    · match dvs, hD with
      | dv :: dvs2, hD =>
        have hmk : mkNamed (p :: rest) ivs (dv :: dvs2)
            = ((rest.filter fun q => q.indexed).map fun q => q.name).zip ivs
              ++ ((p.name, dv)
                :: (((rest.filter fun q => !q.indexed).map fun q => q.name).zip dvs2)) := by
          simp [mkNamed, List.filter_cons, hpi]
        have hzi : ∀ e ∈ ((rest.filter fun q => q.indexed).map fun q => q.name).zip ivs,
            e.1 ≠ p.name := by
          intro e he heq
          obtain ⟨h1, _⟩ := List.of_mem_zip he
          simp only [List.mem_map] at h1
          obtain ⟨q, hq, hqe⟩ := h1
          exact hpname q (List.mem_of_mem_filter hq) (by rw [hqe, heq])
        have hzd : ∀ e ∈ ((rest.filter fun q => !q.indexed).map fun q => q.name).zip dvs2,
            e.1 ≠ p.name := by
          intro e he heq
          obtain ⟨h1, _⟩ := List.of_mem_zip he
          simp only [List.mem_map] at h1
          obtain ⟨q, hq, hqe⟩ := h1
          exact hpname q (List.mem_of_mem_filter hq) (by rw [hqe, heq])
        rw [hmk, List.mapM_cons]
        rw [lookupLast_middle_hit hzi hzd]
        rw [mapM_congr_except rest _
          (fun q => match lookupLast (mkNamed rest ivs dvs2) q.name with
            | some tok => Except.ok (LogParam.mk q.name tok)
            | none => (.error .invalidData : Except Err LogParam))
          (fun q hq => by
            rw [lookupLast_middle_ne (hpname q hq)]
            rfl)]
        rw [ih ivs dvs2 hrest_nodup
          (by rw [List.filter_cons_of_neg (by simp [hpi])] at hT; exact hT)
          (by rw [List.filter_cons_of_pos (by simp [hpi])] at hD; simpa using hD)]
        simp only [bindValues, hpi, if_false]
        rfl
      | [], hD =>
        rw [List.filter_cons_of_pos (by simp [hpi])] at hD
        simp at hD

theorem tokenTail_static {t : Token} (hst : t.isDynamic = false) :
    tokenTail t = [] := by
  match t with
  | .address a => rfl
  | .uint v => rfl
  | .bytes b => simp [Token.isDynamic] at hst
  | .string b => simp [Token.isDynamic] at hst

theorem sumTails_static {ts : List Token}
    (hst : ∀ t ∈ ts, t.isDynamic = false) : sumTails ts = 0 := by
  induction ts with
  | nil => rfl
  | cons t tl ih =>
    rw [sumTails_cons, tokenTail_static (hst t (by simp)),
      ih fun u hu => hst u (by simp [hu])]
    rfl

theorem tokenHeadStatic_length {t : Token} (hst : t.isDynamic = false)
    (hwf : TokenWF t) : (tokenHeadStatic t).length = 32 := by
  match t with
  | .address a =>
    simp only [TokenWF] at hwf
    simp [tokenHeadStatic, hwf]
  | .uint v => simp [tokenHeadStatic, beWord_length]
  | .bytes b => simp [Token.isDynamic] at hst
  | .string b => simp [Token.isDynamic] at hst

theorem encodeAux_static_heads (H : Nat) :
    ∀ (ts : List Token) (acc : Nat), (∀ t ∈ ts, t.isDynamic = false) →
      (encodeAux H ts acc).1 = ts.map tokenHeadStatic := by
  intro ts
  induction ts with
  | nil => intro acc _; rfl
  | cons t tl ih =>
    intro acc hst
    rw [encodeAux_cons, headWord, if_neg (by simp [hst t (by simp)]),
      ih _ fun u hu => hst u (by simp [hu])]
    rfl

theorem flatten_map_tokenTail_static {ts : List Token}
    (hst : ∀ t ∈ ts, t.isDynamic = false) :
    (ts.map tokenTail).flatten = [] := by
  induction ts with
  | nil => rfl
  | cons t tl ih =>
    simp only [List.map_cons, List.flatten_cons,
      tokenTail_static (hst t (by simp)), List.nil_append]
    exact ih fun u hu => hst u (by simp [hu])

/-- The encoding of an all-static token list is just its words in order. -/
theorem encodeTokens_static {ts : List Token}
    (hst : ∀ t ∈ ts, t.isDynamic = false) :
    encodeTokens ts = (ts.map tokenHeadStatic).flatten := by
  rw [encodeTokens, encodeAux_static_heads _ ts 0 hst, encodeAux_snd,
    flatten_map_tokenTail_static hst, List.append_nil]

/-- The `from_log_entry_data` recovers a log entry built from known fields
against a matching event shape: for distinct declared names, static indexed
kinds matching the topic values and data kinds matching the payload values,
it returns the log entry's address as the custodian address and binds every
declared parameter to its positional value, in declared order. -/
theorem from_log_entry_data_mk (keccak : String → Bytes) (nm : String)
    (inputs : List EventParam) (addr : Bytes) (ivs dvs : List Token)
    (haddr : addr.length = 20)
    (hksig : (keccak (eventSignature nm inputs)).length = 32)
    (hT : (inputs.filter fun p => p.indexed).map (fun p => p.kind)
      = ivs.map Token.typeOf)
    (hD : (inputs.filter fun p => !p.indexed).map (fun p => p.kind)
      = dvs.map Token.typeOf)
    (hstatic : ∀ t ∈ ivs, t.isDynamic = false)
    (hwfT : ∀ t ∈ ivs, TokenWF t)
    (hwfD : ∀ t ∈ dvs, TokenWF t)
    (hnodup : (inputs.map fun p => p.name).Nodup)
    (hivslen : ivs.length ≤ 2 ^ 20)
    (hsizeD : 32 * dvs.length + sumTails dvs < 2 ^ 32) :
    EthEvent.from_log_entry_data keccak nm
        (inputs.map fun p => (p.name, p.kind, p.indexed))
        (mkLogEntryData addr
          (keccak (eventSignature nm inputs) :: ivs.map tokenHeadStatic)
          (encodeTokens dvs))
      = .ok ⟨addr, ⟨bindValues inputs ivs dvs⟩⟩ := by
  have hconv : ((inputs.map fun p => (p.name, p.kind, p.indexed)).map
      fun q => EventParam.mk q.1 q.2.1 q.2.2) = inputs := by
    rw [List.map_map]
    have hfun : ((fun q : String × ParamType × Bool => EventParam.mk q.1 q.2.1 q.2.2)
        ∘ fun p : EventParam => (p.name, p.kind, p.indexed))
        = id := funext fun p => rfl
    rw [hfun, List.map_id]
  have hrlp : rlpDecodeLogEntry (mkLogEntryData addr
      (keccak (eventSignature nm inputs) :: ivs.map tokenHeadStatic)
      (encodeTokens dvs))
      = .ok ⟨addr, keccak (eventSignature nm inputs) :: ivs.map tokenHeadStatic,
          encodeTokens dvs⟩ := by
    apply rlpDecodeLogEntry_mk haddr
    · intro t ht
      simp only [List.mem_cons, List.mem_map] at ht
      rcases ht with rfl | ⟨u, hu, rfl⟩
      · exact hksig
      · exact tokenHeadStatic_length (hstatic u hu) (hwfT u hu)
    · simp only [List.length_cons, List.length_map]
      calc ivs.length + 1 ≤ 2 ^ 20 + 1 := by omega
      _ ≤ 2 ^ 56 := by norm_num
    · rw [encodeTokens_length hwfD]
      calc 32 * dvs.length + sumTails dvs ≤ 2 ^ 32 := by omega
      _ ≤ 2 ^ 62 := by norm_num
  have hlenT : (inputs.filter fun p => p.indexed).length = ivs.length := by
    have := congrArg List.length hT
    simpa using this
  have hlenD : (inputs.filter fun p => !p.indexed).length = dvs.length := by
    have := congrArg List.length hD
    simpa using this
  have hTT : ethabiDecode ((inputs.filter fun p => p.indexed).map fun p => p.kind)
      ((ivs.map tokenHeadStatic).flatten) = .ok ivs := by
    rw [hT, ← encodeTokens_static hstatic]
    exact ethabiDecode_encodeTokens hwfT (by
      rw [sumTails_static hstatic]
      calc 32 * ivs.length + 0 ≤ 32 * 2 ^ 20 := by omega
      _ < 2 ^ 32 := by norm_num)
  have hDD : ethabiDecode ((inputs.filter fun p => !p.indexed).map fun p => p.kind)
      (encodeTokens dvs) = .ok dvs := by
    rw [hD]
    exact ethabiDecode_encodeTokens hwfD hsizeD
  have hbind := mapM_lookup_bind inputs ivs dvs hnodup hlenT hlenD
  simp only [mkNamed] at hbind
  have hparse : parseLog keccak nm inputs
      (keccak (eventSignature nm inputs) :: ivs.map tokenHeadStatic)
      (encodeTokens dvs) = .ok ⟨bindValues inputs ivs dvs⟩ := by
    simp only [parseLog, List.head?_cons, exceptBind_ok]
    rw [if_neg (by simp)]
    simp only [List.drop_succ_cons, List.drop_zero, hTT, exceptBind_ok]
    rw [if_neg (by simp [hlenT])]
    simp only [hDD, exceptBind_ok, hbind]
  simp only [EthEvent.from_log_entry_data, hconv, hrlp, exceptBind_ok, hparse]

/-- An RLP decoding failure aborts `from_log_entry_data`
(`rlp::decode(data).expect("Invalid RLP")`). -/
theorem from_log_entry_data_rlp_err {keccak : String → Bytes} {nm : String}
    {ps : List (String × ParamType × Bool)} {data : Bytes} {e : Err}
    (h : rlpDecodeLogEntry data = .error e) :
    EthEvent.from_log_entry_data keccak nm ps data = .error e := by
  simp only [EthEvent.from_log_entry_data, h, exceptBind_err]

/-- A topic layout that does not open with the declared signature hash
(no topics at all, or a first topic differing from the hash) aborts
`from_log_entry_data` (`event.parse_log(raw_log).expect(...)`). -/
theorem from_log_entry_data_sig_err {keccak : String → Bytes} {nm : String}
    {ps : List (String × ParamType × Bool)} {data : Bytes} {entry : LogEntry}
    (hrlp : rlpDecodeLogEntry data = .ok entry)
    (hsig : ∀ t0, entry.topics.head? = some t0 →
      t0 ≠ keccak (eventSignature nm (ps.map fun q => EventParam.mk q.1 q.2.1 q.2.2))) :
    EthEvent.from_log_entry_data keccak nm ps data = .error .invalidData := by
  simp only [EthEvent.from_log_entry_data, hrlp, exceptBind_ok]
  match htl : entry.topics with
  | [] =>
    simp only [parseLog, List.head?_nil]
    rfl
  | t0 :: rest =>
    have hne := hsig t0 (by rw [htl]; rfl)
    simp only [parseLog, List.head?_cons, exceptBind_ok]
    rw [if_pos hne]
    rfl

/-- Closed-form case analysis of `record_proof`. -/
theorem record_proof_eq (sha : Bytes → Bytes) (susage : List Bytes → Nat)
    (self : EthConnector) (env : Env) (proof : Proof) :
    record_proof sha susage self env proof
      = if env.predecessor_account_id = env.current_account_id then
          if proofFingerprint sha proof ∈ self.used_events then
            .error .proofAlreadyUsed
          else if env.attached_deposit
              < (susage (setInsert self.used_events (proofFingerprint sha proof))
                  - susage self.used_events) * STORAGE_PRICE_PER_BYTE then
            .error .insufficientDeposit
          else
            .ok ({ self with
                used_events := setInsert self.used_events (proofFingerprint sha proof) },
              env.attached_deposit
                - (susage (setInsert self.used_events (proofFingerprint sha proof))
                    - susage self.used_events) * STORAGE_PRICE_PER_BYTE)
        else .error .unauthorizedCallback := by
  by_cases hself : env.predecessor_account_id = env.current_account_id
  · rw [if_pos hself]
    by_cases hmem : proofFingerprint sha proof ∈ self.used_events
    · rw [if_pos hmem]
      simp [record_proof, assert_self, hself, hmem, exceptBind_ok]
    · rw [if_neg hmem]
      by_cases hdep : env.attached_deposit
          < (susage (setInsert self.used_events (proofFingerprint sha proof))
              - susage self.used_events) * STORAGE_PRICE_PER_BYTE
      · rw [if_pos hdep]
        simp [record_proof, assert_self, hself, hmem, hdep, exceptBind_ok]
      · rw [if_neg hdep]
        simp [record_proof, assert_self, hself, hmem, hdep, exceptBind_ok]
  · simp [record_proof, assert_self, hself, exceptBind_err]

theorem setInsert_mem_self (s : List Bytes) (k : Bytes) : k ∈ setInsert s k := by
  rw [setInsert]
  split
  · assumption
  · simp

theorem setInsert_mem_mono {s : List Bytes} {k x : Bytes} (h : x ∈ s) :
    x ∈ setInsert s k := by
  rw [setInsert]
  split
  · exact h
  · simp [h]

/-- The `record_proof` succeeds only on a self-call with a fresh fingerprint
and a sufficient deposit, and then inserts exactly that fingerprint. -/
theorem record_proof_ok {sha : Bytes → Bytes} {susage : List Bytes → Nat}
    {self : EthConnector} {env : Env} {proof : Proof}
    {self2 : EthConnector} {bal : Balance}
    (h : record_proof sha susage self env proof = .ok (self2, bal)) :
    env.predecessor_account_id = env.current_account_id
      ∧ proofFingerprint sha proof ∉ self.used_events
      ∧ self2.used_events
          = setInsert self.used_events (proofFingerprint sha proof)
      ∧ self2.prover_account = self.prover_account
      ∧ self2.eth_custodian_address = self.eth_custodian_address := by
  rw [record_proof_eq] at h
  by_cases hself : env.predecessor_account_id = env.current_account_id
  · rw [if_pos hself] at h
    by_cases hmem : proofFingerprint sha proof ∈ self.used_events
    · rw [if_pos hmem] at h
      exact Except.noConfusion h
    · rw [if_neg hmem] at h
      by_cases hdep : env.attached_deposit
          < (susage (setInsert self.used_events (proofFingerprint sha proof))
              - susage self.used_events) * STORAGE_PRICE_PER_BYTE
      · rw [if_pos hdep] at h
        exact Except.noConfusion h
      · rw [if_neg hdep] at h
        simp only [Except.ok.injEq, Prod.mk.injEq] at h
        obtain ⟨h1, _⟩ := h
        rw [← h1]
        exact ⟨hself, hmem, rfl, rfl, rfl⟩
  · rw [if_neg hself] at h
    exact Except.noConfusion h

/-- Fingerprint membership is monotone along any call sequence step. -/
theorem record_step_mono {sha : Bytes → Bytes} {susage : List Bytes → Nat}
    {st : EthConnector} {c : Env × Proof} {F : Bytes}
    (h : F ∈ st.used_events) :
    F ∈ (record_step sha susage st c).used_events := by
  rw [record_step, record_proof_state]
  match hrec : record_proof sha susage st c.1 c.2 with
  | .ok (self2, bal) =>
    obtain ⟨_, _, hins, _, _⟩ := record_proof_ok hrec
    rw [hins]
    exact setInsert_mem_mono h
  | .error e => exact h

/-- Once the fingerprint is in the set, no later call records it again. -/
theorem count_credits_zero (sha : Bytes → Bytes) (susage : List Bytes → Nat)
    (F : Bytes) :
    ∀ (cs : List (Env × Proof)) (st : EthConnector), F ∈ st.used_events →
      count_credits sha susage F st cs = 0 := by
  intro cs
  induction cs with
  | nil => intro st _; rfl
  | cons c cs2 ih =>
    intro st hmem
    rw [count_credits]
    rw [if_neg (by
      rintro ⟨hok, hFP⟩
      match hrec : record_proof sha susage st c.1 c.2 with
      | .ok (self2, bal) =>
        obtain ⟨_, hfresh, _, _, _⟩ := record_proof_ok hrec
        rw [hFP] at hfresh
        exact hfresh hmem
      | .error e => rw [hrec] at hok; simp [Except.isOk, Except.toBool] at hok)]
    rw [ih _ (record_step_mono hmem)]

/-- Across any call sequence, at most one call records a given
fingerprint. -/
theorem count_credits_le_one (sha : Bytes → Bytes)
    (susage : List Bytes → Nat) (F : Bytes) :
    ∀ (cs : List (Env × Proof)) (st : EthConnector),
      count_credits sha susage F st cs ≤ 1 := by
  intro cs
  induction cs with
  | nil => intro st; simp [count_credits]
  | cons c cs2 ih =>
    intro st
    rw [count_credits]
    by_cases hc : (record_proof sha susage st c.1 c.2).isOk
        ∧ proofFingerprint sha c.2 = F
    · rw [if_pos hc]
      obtain ⟨hok, hFP⟩ := hc
      match hrec : record_proof sha susage st c.1 c.2 with
      | .ok (self2, bal) =>
        have hmem2 : F ∈ (record_step sha susage st c).used_events := by
          rw [record_step, record_proof_state, hrec]
          obtain ⟨_, _, hins, _, _⟩ := record_proof_ok hrec
          rw [hins, ← hFP]
          exact setInsert_mem_self _ _
        rw [count_credits_zero sha susage F cs2 _ hmem2]
      | .error e =>
        rw [hrec] at hok
        simp [Except.isOk, Except.toBool] at hok
    · rw [if_neg hc]
      simpa using ih (record_step sha susage st c)

/-- C1.  For every fingerprint F, at most one call ever successfully
records F: `record_proof` (and hence `finish_deposit`) fails when F is
already a member of `used_events`, leaving the set unchanged (the panic
reverts the call); it inserts F and succeeds when F is fresh (on a
self-call with the storage deposit covered, the contract's standing
precondition for deposits); and across any sequence of calls at most one
call successfully records F, so no two successful deposits share the same
fingerprint. -/
theorem claim_C1_replay_guard (sha : Bytes → Bytes)
    (susage : List Bytes → Nat) (self : EthConnector) (env : Env)
    (p : Proof) :
    (proofFingerprint sha p ∈ self.used_events →
      (record_proof sha susage self env p).isOk = false
        ∧ record_proof_state sha susage self env p = self)
    ∧ (proofFingerprint sha p ∉ self.used_events →
        env.predecessor_account_id = env.current_account_id →
        (susage (setInsert self.used_events (proofFingerprint sha p))
            - susage self.used_events) * STORAGE_PRICE_PER_BYTE
          ≤ env.attached_deposit →
        record_proof sha susage self env p
          = .ok ({ self with
              used_events := setInsert self.used_events (proofFingerprint sha p) },
            env.attached_deposit
              - (susage (setInsert self.used_events (proofFingerprint sha p))
                  - susage self.used_events) * STORAGE_PRICE_PER_BYTE)
        ∧ proofFingerprint sha p
            ∈ (record_proof_state sha susage self env p).used_events)
    ∧ (∀ (F : Bytes) (st : EthConnector) (cs : List (Env × Proof)),
        count_credits sha susage F st cs ≤ 1) := by
  refine ⟨?_, ?_, fun F st cs => count_credits_le_one sha susage F cs st⟩
  · intro hmem
    have heq := record_proof_eq sha susage self env p
    by_cases hself : env.predecessor_account_id = env.current_account_id
    · rw [if_pos hself, if_pos hmem] at heq
      refine ⟨by rw [heq]; rfl, ?_⟩
      simp only [record_proof_state, heq]
    · rw [if_neg hself] at heq
      refine ⟨by rw [heq]; rfl, ?_⟩
      simp only [record_proof_state, heq]
  · intro hfresh hself hdep
    have heq := record_proof_eq sha susage self env p
    rw [if_pos hself, if_neg hfresh, if_neg (Nat.not_lt.2 hdep)] at heq
    refine ⟨heq, ?_⟩
    simp only [record_proof_state, heq]
    exact setInsert_mem_self _ _

/-- C1 witness: on a state that already holds the fingerprint the call
fails with the set unchanged; on a fresh state it succeeds and inserts. -/
theorem claim_C1_replay_guard_witness :
    ((record_proof cexSha cexSusage cexStateUsed cexEnvSelf cexProof).isOk = false
      ∧ record_proof_state cexSha cexSusage cexStateUsed cexEnvSelf cexProof
          = cexStateUsed)
    ∧ record_proof cexSha cexSusage cexState cexEnvSelf cexProof
        = .ok ({ cexState with
            used_events := setInsert cexState.used_events
              (proofFingerprint cexSha cexProof) },
          cexEnvSelf.attached_deposit
            - (cexSusage (setInsert cexState.used_events
                  (proofFingerprint cexSha cexProof))
                - cexSusage cexState.used_events) * STORAGE_PRICE_PER_BYTE) :=
  ⟨(claim_C1_replay_guard cexSha cexSusage cexStateUsed cexEnvSelf cexProof).1
      (by decide),
    ((claim_C1_replay_guard cexSha cexSusage cexState cexEnvSelf cexProof).2.1
      (by decide) (by decide) (by decide)).1⟩

/-- C2 (code bug).  `finish_deposit` can never succeed — hence never adds
a fingerprint nor issues the mint call the spec's scenario demands —
because it computes the mint target as
`get_bridge_token_account_id(String::from(""))`, and
`validate_eth_address("")` panics (the empty string is not a 20-byte hex
address).  Even on the intended happy path (self-call, successful
verification, fresh fingerprint, sufficient deposit) the call aborts with
exactly that address-validation panic. -/
theorem claim_C2_finish_deposit_cannot_mint (sha : Bytes → Bytes)
    (susage : List Bytes → Nat) (self : EthConnector) (env : Env)
    (vs : Bool) (o : AccountId) (a : Balance) (p : Proof) :
    (finish_deposit sha susage self env vs o a p).isOk = false
    ∧ (env.predecessor_account_id = env.current_account_id → vs = true →
        proofFingerprint sha p ∉ self.used_events →
        (susage (setInsert self.used_events (proofFingerprint sha p))
            - susage self.used_events) * STORAGE_PRICE_PER_BYTE
          ≤ env.attached_deposit →
        finish_deposit sha susage self env vs o a p
          = .error .invalidEthAddress) := by
  have hbridge : get_bridge_token_account_id env "" = .error .invalidEthAddress :=
    rfl
  constructor
  · by_cases hself : env.predecessor_account_id = env.current_account_id
    · match vs with
      | false =>
        simp [finish_deposit, assert_self, hself, exceptBind_ok, Except.isOk,
          Except.toBool]
      | true =>
        match hrec : record_proof sha susage self env p with
        | .ok (s2, bal) =>
          simp [finish_deposit, assert_self, hself, exceptBind_ok, hrec,
            hbridge, exceptBind_err, Except.isOk, Except.toBool]
        | .error e =>
          simp [finish_deposit, assert_self, hself, exceptBind_ok, hrec,
            exceptBind_err, Except.isOk, Except.toBool]
    · simp [finish_deposit, assert_self, hself, exceptBind_err, Except.isOk,
        Except.toBool]
  · intro hself hvs hfresh hdep
    subst hvs
    have heq := record_proof_eq sha susage self env p
    rw [if_pos hself, if_neg hfresh, if_neg (Nat.not_lt.2 hdep)] at heq
    simp [finish_deposit, assert_self, hself, exceptBind_ok, heq, hbridge,
      exceptBind_err]

/-- C2 witness: the happy path at concrete inputs ends in the
address-validation abort. -/
theorem claim_C2_finish_deposit_cannot_mint_witness :
    finish_deposit cexSha cexSusage cexState cexEnvSelf true "alice" 1000
        cexProof = .error .invalidEthAddress :=
  (claim_C2_finish_deposit_cannot_mint cexSha cexSusage cexState cexEnvSelf
      true "alice" 1000 cexProof).2 (by decide) rfl (by decide) (by decide)

/-- C3.  A decoded event whose custodian address differs from the
configured `eth_custodian_address` makes `deposit` abort with the
custodian-mismatch panic: the result carries no `VerifyCall`, so no
verification request is ever dispatched to the prover account, and the
state is unchanged. -/
theorem claim_C3_custodian_gate (keccak : String → Bytes)
    (self : EthConnector) (env : Env) (p : Proof) (ev : EthLockedEvent)
    (hdec : EthLockedEvent.from_log_entry_data keccak p.log_entry_data
      = .ok ev)
    (hne : ev.eth_custodian_address ≠ self.eth_custodian_address) :
    deposit keccak self env p = .error .custodianMismatch
    ∧ deposit_state keccak self env p = self := by
  have hrun : deposit keccak self env p = .error .custodianMismatch := by
    simp only [deposit, hdec, exceptBind_ok]
    rw [if_pos hne]
  exact ⟨hrun, by simp only [deposit_state, hrun]⟩

/-- C3 witness: a well-formed proof for custodian `cexCustodian` submitted
to a connector configured with `cexOtherCustodian`. -/
theorem claim_C3_custodian_gate_witness :
    deposit cexKeccak cexStateOther cexEnvSelf cexProof
        = .error .custodianMismatch
    ∧ deposit_state cexKeccak cexStateOther cexEnvSelf cexProof
        = cexStateOther :=
  claim_C3_custodian_gate cexKeccak cexStateOther cexEnvSelf cexProof
    ⟨cexCustodian, 1000, "alice"⟩ (by decide) (by decide)

/-- C4.  The replay fingerprint is a function of exactly
`(log_index, receipt_index, header_data)`: proofs agreeing on the triple
hash identically whatever their other fields (so the second is treated as
a replay after the first records), and the hashed preimage — borsh
`log_index` ++ borsh `receipt_index` ++ `header_data` — determines the
triple, so it differs whenever any of the three differs. -/
theorem claim_C4_fingerprint_scope :
    (∀ (sha : Bytes → Bytes) (p1 p2 : Proof),
        p1.log_index = p2.log_index → p1.receipt_index = p2.receipt_index →
        p1.header_data = p2.header_data →
        proofFingerprint sha p1 = proofFingerprint sha p2)
    ∧ (∀ p1 p2 : Proof,
        p1.log_index < 2 ^ 64 → p2.log_index < 2 ^ 64 →
        p1.receipt_index < 2 ^ 64 → p2.receipt_index < 2 ^ 64 →
        fingerprintPreimage p1 = fingerprintPreimage p2 →
        p1.log_index = p2.log_index ∧ p1.receipt_index = p2.receipt_index
          ∧ p1.header_data = p2.header_data)
    ∧ (∀ (sha : Bytes → Bytes) (susage : List Bytes → Nat)
        (st : EthConnector) (env1 env2 : Env) (p1 p2 : Proof)
        (st2 : EthConnector) (bal : Balance),
        p1.log_index = p2.log_index → p1.receipt_index = p2.receipt_index →
        p1.header_data = p2.header_data →
        env2.predecessor_account_id = env2.current_account_id →
        record_proof sha susage st env1 p1 = .ok (st2, bal) →
        record_proof sha susage st2 env2 p2 = .error .proofAlreadyUsed) := by
  have hsame : ∀ (sha : Bytes → Bytes) (p1 p2 : Proof),
      p1.log_index = p2.log_index → p1.receipt_index = p2.receipt_index →
      p1.header_data = p2.header_data →
      proofFingerprint sha p1 = proofFingerprint sha p2 := by
    intro sha p1 p2 h1 h2 h3
    simp only [proofFingerprint, fingerprintPreimage, h1, h2, h3]
  refine ⟨hsame, ?_, ?_⟩
  · intro p1 p2 hl1 hl2 hr1 hr2 hpre
    simp only [fingerprintPreimage] at hpre
    obtain ⟨hlog, hrest⟩ := List.append_inj hpre (by
      rw [borshU64_length, borshU64_length])
    obtain ⟨hrec, hhd⟩ := List.append_inj hrest (by
      rw [borshU64_length, borshU64_length])
    exact ⟨borshU64_inj hl1 hl2 hlog, borshU64_inj hr1 hr2 hrec, hhd⟩
  · intro sha susage st env1 env2 p1 p2 st2 bal h1 h2 h3 hself2 hok
    obtain ⟨_, _, hins, _, _⟩ := record_proof_ok hok
    have hmem : proofFingerprint sha p2 ∈ st2.used_events := by
      rw [hins, ← hsame sha p1 p2 h1 h2 h3]
      exact setInsert_mem_self _ _
    have heq := record_proof_eq sha susage st2 env2 p2
    rw [if_pos hself2, if_pos hmem] at heq
    exact heq

/-- C4 witness: `cexProof` and `cexProof2` share the triple and collide;
after the first records, the second is rejected as a replay. -/
theorem claim_C4_fingerprint_scope_witness :
    proofFingerprint cexSha cexProof = proofFingerprint cexSha cexProof2
    ∧ (cexProof.log_index = cexProof2.log_index
        ∧ cexProof.receipt_index = cexProof2.receipt_index
        ∧ cexProof.header_data = cexProof2.header_data)
    ∧ record_proof cexSha cexSusage
        ({ cexState with
          used_events := setInsert cexState.used_events
            (proofFingerprint cexSha cexProof) }) cexEnvSelf cexProof2
      = .error .proofAlreadyUsed :=
  ⟨claim_C4_fingerprint_scope.1 cexSha cexProof cexProof2 rfl rfl rfl,
    claim_C4_fingerprint_scope.2.1 cexProof cexProof2 (by decide) (by decide)
      (by decide) (by decide) (by decide),
    claim_C4_fingerprint_scope.2.2 cexSha cexSusage cexState cexEnvSelf
      cexEnvSelf cexProof cexProof2
      ({ cexState with
        used_events := setInsert cexState.used_events
          (proofFingerprint cexSha cexProof) })
      (cexEnvSelf.attached_deposit
        - (cexSusage (setInsert cexState.used_events
              (proofFingerprint cexSha cexProof))
            - cexSusage cexState.used_events) * STORAGE_PRICE_PER_BYTE)
      rfl rfl rfl rfl (by decide)⟩

/-- C5.  A `finish_deposit` call whose predecessor is not the contract
itself aborts on `assert_self` with no state mutated, whatever the
verification flag and the proof. -/
theorem claim_C5_callback_auth (sha : Bytes → Bytes)
    (susage : List Bytes → Nat) (self : EthConnector) (env : Env)
    (vs : Bool) (o : AccountId) (a : Balance) (p : Proof)
    (hne : env.predecessor_account_id ≠ env.current_account_id) :
    finish_deposit sha susage self env vs o a p
        = .error .unauthorizedCallback
    ∧ finish_deposit_state sha susage self env vs o a p = self := by
  have hrun : finish_deposit sha susage self env vs o a p
      = .error .unauthorizedCallback := by
    simp [finish_deposit, assert_self, hne, exceptBind_err]
  exact ⟨hrun, by simp only [finish_deposit_state, hrun]⟩

/-- C5 witness: a third-party caller is rejected even with
`verification_success = true` and a well-formed proof. -/
theorem claim_C5_callback_auth_witness :
    finish_deposit cexSha cexSusage cexState cexEnvOther true "alice" 1000
        cexProof = .error .unauthorizedCallback
    ∧ finish_deposit_state cexSha cexSusage cexState cexEnvOther true
        "alice" 1000 cexProof = cexState :=
  claim_C5_callback_auth cexSha cexSusage cexState cexEnvOther true "alice"
    1000 cexProof (by decide)

/-- C6.  `finish_deposit` with `verification_success = false` fails before
recording anything: the result is an error (so no mint call is scheduled),
the state — in particular `used_events` — is unchanged, and on the
contract's own callback path the abort is exactly the
verification-failure panic, which precedes `record_proof`; the same proof
therefore remains recordable in a fresh call. -/
theorem claim_C6_verification_failure (sha : Bytes → Bytes)
    (susage : List Bytes → Nat) (self : EthConnector) (env : Env)
    (o : AccountId) (a : Balance) (p : Proof) :
    (finish_deposit sha susage self env false o a p).isOk = false
    ∧ finish_deposit_state sha susage self env false o a p = self
    ∧ (env.predecessor_account_id = env.current_account_id →
        finish_deposit sha susage self env false o a p
          = .error .verificationFailed) := by
  by_cases hself : env.predecessor_account_id = env.current_account_id
  · have hrun : finish_deposit sha susage self env false o a p
        = .error .verificationFailed := by
      simp [finish_deposit, assert_self, hself, exceptBind_ok]
    refine ⟨by rw [hrun]; rfl, by simp only [finish_deposit_state, hrun],
      fun _ => hrun⟩
  · have hrun : finish_deposit sha susage self env false o a p
        = .error .unauthorizedCallback := by
      simp [finish_deposit, assert_self, hself, exceptBind_err]
    exact ⟨by rw [hrun]; rfl, by simp only [finish_deposit_state, hrun],
      fun h => absurd h hself⟩

/-- C6 witness: the rejected callback at concrete inputs. -/
theorem claim_C6_verification_failure_witness :
    finish_deposit cexSha cexSusage cexState cexEnvSelf false "alice" 1000
        cexProof = .error .verificationFailed
    ∧ finish_deposit_state cexSha cexSusage cexState cexEnvSelf false
        "alice" 1000 cexProof = cexState :=
  ⟨(claim_C6_verification_failure cexSha cexSusage cexState cexEnvSelf
      "alice" 1000 cexProof).2.2 rfl,
    (claim_C6_verification_failure cexSha cexSusage cexState cexEnvSelf
      "alice" 1000 cexProof).2.1⟩

/-- C7.  When the attached deposit does not cover the storage growth of
inserting the fingerprint (bytes added times `STORAGE_PRICE_PER_BYTE`),
`record_proof` aborts on the checked `attached_deposit - required_deposit`
subtraction and no fingerprint is recorded — the panic reverts the
insert — so the same proof can be retried with sufficient funds. -/
theorem claim_C7_storage_deposit (sha : Bytes → Bytes)
    (susage : List Bytes → Nat) (self : EthConnector) (env : Env)
    (p : Proof)
    (hself : env.predecessor_account_id = env.current_account_id)
    (hfresh : proofFingerprint sha p ∉ self.used_events)
    (hdep : env.attached_deposit
      < (susage (setInsert self.used_events (proofFingerprint sha p))
          - susage self.used_events) * STORAGE_PRICE_PER_BYTE) :
    record_proof sha susage self env p = .error .insufficientDeposit
    ∧ record_proof_state sha susage self env p = self := by
  have heq := record_proof_eq sha susage self env p
  rw [if_pos hself, if_neg hfresh, if_pos hdep] at heq
  exact ⟨heq, by simp only [record_proof_state, heq]⟩

/-- C7 witness: a zero-deposit call is rejected and records nothing. -/
theorem claim_C7_storage_deposit_witness :
    record_proof cexSha cexSusage cexState cexEnvPoor cexProof
        = .error .insufficientDeposit
    ∧ record_proof_state cexSha cexSusage cexState cexEnvPoor cexProof
        = cexState :=
  claim_C7_storage_deposit cexSha cexSusage cexState cexEnvPoor cexProof
    rfl (by decide) (by decide)

/-- C10.  The `deposit` entry point mutates no persistent state:
whether it fails on decoding, fails on the custodian check, or succeeds in
dispatching verification, the resulting state — `prover_account`,
`eth_custodian_address` and `used_events` alike — equals the initial one;
persistent mutation happens only in the finishing callback. -/
theorem claim_C10_deposit_frame (keccak : String → Bytes)
    (self : EthConnector) (env : Env) (p : Proof) :
    deposit_state keccak self env p = self
    ∧ ∀ (st2 : EthConnector) (vc : VerifyCall) (fc : FinishDepositCall),
        deposit keccak self env p = .ok (st2, vc, fc) → st2 = self := by
  match hdec : EthLockedEvent.from_log_entry_data keccak p.log_entry_data with
  | .error e =>
    have hrun : deposit keccak self env p = .error e := by
      simp only [deposit, hdec, exceptBind_err]
    exact ⟨by simp only [deposit_state, hrun],
      fun st2 vc fc h => by rw [hrun] at h; exact Except.noConfusion h⟩
  | .ok ev =>
    by_cases hne : ev.eth_custodian_address ≠ self.eth_custodian_address
    · have hrun : deposit keccak self env p = .error .custodianMismatch := by
        simp only [deposit, hdec, exceptBind_ok]
        rw [if_pos hne]
      exact ⟨by simp only [deposit_state, hrun],
        fun st2 vc fc h => by rw [hrun] at h; exact Except.noConfusion h⟩
    · have hrun : deposit keccak self env p
          = .ok (self,
            ⟨self.prover_account, p.log_index, p.log_entry_data,
              p.receipt_index, p.receipt_data, p.header_data, p.proof,
              false, 0, env.prepaid_gas / 4⟩,
            ⟨ev.recipient, ev.amount, p, env.current_account_id,
              env.attached_deposit, env.prepaid_gas / 2⟩) := by
        simp only [deposit, hdec, exceptBind_ok]
        rw [if_neg hne]
      refine ⟨by simp only [deposit_state, hrun], ?_⟩
      intro st2 vc fc h
      rw [hrun] at h
      simp only [Except.ok.injEq, Prod.mk.injEq] at h
      exact h.1.symm

/-- C10 witness: the concrete deposit leaves the concrete state intact. -/
theorem claim_C10_deposit_frame_witness :
    deposit_state cexKeccak cexState cexEnvSelf cexProof = cexState :=
  (claim_C10_deposit_frame cexKeccak cexState cexEnvSelf cexProof).1

/-- C8 counterexample.  The claim says `from_log_entry_data` fails when the
field order is permuted in the spec without permuting the topics.  It does
not: `cexParamsPerm` transposes the two equally-typed indexed fields of
`EthLockedEvent.event_params`, the signature string — hence `topics[0]` —
is unchanged, and decoding the unmodified `cexWire` SUCCEEDS, silently
binding the token topic's value to the name sender and vice versa. -/
theorem claim_C8_decode_counterexample :
    EthEvent.from_log_entry_data cexKeccak "Locked" cexParamsPerm cexWire
      = .ok ⟨cexCustodian,
          ⟨[⟨"sender", .address cexTokenAddr⟩,
            ⟨"token", .address cexSenderAddr⟩,
            ⟨"amount", .uint 1000⟩,
            ⟨"account_id", .string [97, 108, 105, 99, 101]⟩]⟩⟩ := by
  decide

/-- C8 (amended).  For a log entry constructed from known
`(address, topics, payload)` and a matching ABI field spec — distinct
names, static indexed kinds matching the topic values in declared order,
data kinds matching well-formed payload values (`TokenWF`, which for
string values requires the bytes to be the valid UTF-8 that
`String::from_utf8` accepts) — `from_log_entry_data` returns that address
as `eth_custodian_address` and binds exactly those values in declared
order; it fails when the data is not well-formed RLP, and when the topic
layout does not open with the declared signature hash (no topics at all,
or a first topic differing from the hash of the declared name and type
sequence — which is how a permutation that changes the type sequence
fails; a permutation of equally-typed fields changes neither the
signature nor the outcome, only the name-to-value binding). -/
theorem claim_C8_decode_roundtrip :
    (∀ (keccak : String → Bytes) (nm : String) (inputs : List EventParam)
        (addr : Bytes) (ivs dvs : List Token),
        addr.length = 20 →
        (keccak (eventSignature nm inputs)).length = 32 →
        (inputs.filter fun p => p.indexed).map (fun p => p.kind)
          = ivs.map Token.typeOf →
        (inputs.filter fun p => !p.indexed).map (fun p => p.kind)
          = dvs.map Token.typeOf →
        (∀ t ∈ ivs, t.isDynamic = false) →
        (∀ t ∈ ivs, TokenWF t) →
        (∀ t ∈ dvs, TokenWF t) →
        ((inputs.map fun p => p.name).Nodup) →
        ivs.length ≤ 2 ^ 20 →
        32 * dvs.length + sumTails dvs < 2 ^ 32 →
        EthEvent.from_log_entry_data keccak nm
            (inputs.map fun p => (p.name, p.kind, p.indexed))
            (mkLogEntryData addr
              (keccak (eventSignature nm inputs) :: ivs.map tokenHeadStatic)
              (encodeTokens dvs))
          = .ok ⟨addr, ⟨bindValues inputs ivs dvs⟩⟩)
    ∧ (∀ (keccak : String → Bytes) (nm : String)
        (ps : List (String × ParamType × Bool)) (data : Bytes) (e : Err),
        rlpDecodeLogEntry data = .error e →
        EthEvent.from_log_entry_data keccak nm ps data = .error e)
    ∧ (∀ (keccak : String → Bytes) (nm : String)
        (ps : List (String × ParamType × Bool)) (data : Bytes)
        (entry : LogEntry),
        rlpDecodeLogEntry data = .ok entry →
        (∀ t0, entry.topics.head? = some t0 →
          t0 ≠ keccak (eventSignature nm
            (ps.map fun q => EventParam.mk q.1 q.2.1 q.2.2))) →
        EthEvent.from_log_entry_data keccak nm ps data
          = .error .invalidData) :=
  ⟨from_log_entry_data_mk,
    fun _ _ _ _ _ h => from_log_entry_data_rlp_err h,
    fun _ _ _ _ _ h1 h2 => from_log_entry_data_sig_err h1 h2⟩

/-- C8 witness: the round trip at the concrete `Locked` fixture. -/
theorem claim_C8_decode_roundtrip_witness :
    EthEvent.from_log_entry_data cexKeccak "Locked"
        (cexInputs.map fun p => (p.name, p.kind, p.indexed))
        (mkLogEntryData cexCustodian
          (cexKeccak (eventSignature "Locked" cexInputs)
            :: [Token.address cexTokenAddr,
                Token.address cexSenderAddr].map tokenHeadStatic)
          (encodeTokens [Token.uint 1000, Token.string [97, 108, 105, 99, 101]]))
      = .ok ⟨cexCustodian,
          ⟨bindValues cexInputs
            [Token.address cexTokenAddr, Token.address cexSenderAddr]
            [Token.uint 1000, Token.string [97, 108, 105, 99, 101]]⟩⟩ :=
  claim_C8_decode_roundtrip.1 cexKeccak "Locked" cexInputs cexCustodian
    [Token.address cexTokenAddr, Token.address cexSenderAddr]
    [Token.uint 1000, Token.string [97, 108, 105, 99, 101]]
    (by decide) (by decide) (by decide) (by decide) (by decide)
    (by
      intro t ht
      simp only [List.mem_cons, List.not_mem_nil, or_false] at ht
      rcases ht with rfl | rfl
      · show cexTokenAddr.length = 20
        decide
      · show cexSenderAddr.length = 20
        decide)
    (by
      intro t ht
      simp only [List.mem_cons, List.not_mem_nil, or_false] at ht
      rcases ht with rfl | rfl
      · show (1000 : Nat) < 2 ^ 256
        decide
      · show ([97, 108, 105, 99, 101] : Bytes).length < 2 ^ 32
            ∧ utf8Valid [97, 108, 105, 99, 101] = true
        exact ⟨by decide, by decide⟩)
    (by decide) (by decide) (by decide)

/-- C9.  `finish_withdraw` succeeds exactly when the predecessor is
`<token>.<current_account>` whose first label is 40 hex characters of a
20-byte address and whose `recipient` argument likewise decodes to 20
bytes; on success it returns
`(ResultType::Withdraw, amount, token_address, recipient_address)` with
the state unchanged; and it neither consults nor modifies `used_events`:
its entire outcome is invariant under replacing `used_events`, and the
returned state is the input state. -/
theorem claim_C9_finish_withdraw :
    (∀ (s : String) (b : Bytes),
        validate_eth_address s = .ok b ↔ hexDecode s = some b ∧ b.length = 20)
    ∧ (∀ (self : EthConnector) (env : Env) (amount : Balance)
        (recipient : String) (ta ra : Bytes),
        env.predecessor_account_id
          = firstPart env.predecessor_account_id ++ "." ++ env.current_account_id →
        validate_eth_address (firstPart env.predecessor_account_id) = .ok ta →
        validate_eth_address recipient = .ok ra →
        finish_withdraw self env amount recipient
          = .ok (self, (.Withdraw, amount, ta, ra)))
    ∧ (∀ (self : EthConnector) (env : Env) (amount : Balance)
        (recipient : String) (r : EthConnector × (ResultType × Balance × Bytes × Bytes)),
        finish_withdraw self env amount recipient = .ok r →
        env.predecessor_account_id
          = firstPart env.predecessor_account_id ++ "." ++ env.current_account_id
        ∧ r.1 = self
        ∧ ∃ ta ra,
            validate_eth_address (firstPart env.predecessor_account_id) = .ok ta
            ∧ validate_eth_address recipient = .ok ra
            ∧ r.2 = (.Withdraw, amount, ta, ra))
    ∧ (∀ (self : EthConnector) (env : Env) (amount : Balance)
        (recipient : String) (u : List Bytes),
        finish_withdraw { self with used_events := u } env amount recipient
          = Except.map (fun x => ({ self with used_events := u }, x.2))
              (finish_withdraw self env amount recipient)) := by
  refine ⟨?_, ?_, ?_, ?_⟩
  · intro s b
    constructor
    · intro hh
      simp only [validate_eth_address] at hh
      split at hh
      · exact Except.noConfusion hh
      · rename_i d hd
        split at hh
        · rename_i hl
          simp only [Except.ok.injEq] at hh
          subst hh
          exact ⟨hd, hl⟩
        · exact Except.noConfusion hh
    · rintro ⟨h1, h2⟩
      simp only [validate_eth_address, h1]
      rw [if_pos h2]
  · intro self env amount recipient ta ra hsub hta hra
    simp only [finish_withdraw]
    rw [if_neg (by intro hh; exact hh hsub)]
    simp only [hta, hra, exceptBind_ok]
  · intro self env amount recipient r hok
    simp only [finish_withdraw] at hok
    by_cases hcond : env.predecessor_account_id
        ≠ firstPart env.predecessor_account_id ++ "." ++ env.current_account_id
    · rw [if_pos hcond] at hok
      exact absurd hok (by intro hh; exact Except.noConfusion hh)
    · rw [if_neg hcond] at hok
      have hsub := not_not.1 hcond
      match hta : validate_eth_address (firstPart env.predecessor_account_id) with
      | .error e =>
        rw [hta] at hok
        exact absurd hok (by intro hh; exact Except.noConfusion hh)
      | .ok ta =>
        rw [hta] at hok
        simp only [exceptBind_ok] at hok
        match hra : validate_eth_address recipient with
        | .error e =>
          rw [hra] at hok
          exact absurd hok (by intro hh; exact Except.noConfusion hh)
        | .ok ra =>
          rw [hra] at hok
          simp only [exceptBind_ok, Except.ok.injEq] at hok
          refine ⟨hsub, ?_, ta, ra, rfl, rfl, ?_⟩
          · rw [← hok]
          · rw [← hok]
  · intro self env amount recipient u
    simp only [finish_withdraw]
    by_cases hcond : env.predecessor_account_id
        ≠ firstPart env.predecessor_account_id ++ "." ++ env.current_account_id
    · rw [if_pos hcond, if_pos hcond]
      rfl
    · rw [if_neg hcond, if_neg hcond]
      match hta : validate_eth_address (firstPart env.predecessor_account_id) with
      | .error e =>
        simp only [exceptBind_err]
        rfl
      | .ok ta =>
        simp only [exceptBind_ok]
        match hra : validate_eth_address recipient with
        | .error e =>
          simp only [exceptBind_err]
          rfl
        | .ok ra =>
          simp only [exceptBind_ok]
          rfl

/-- C9 witness: a concrete sub-account caller with hex labels. -/
theorem claim_C9_finish_withdraw_witness :
    finish_withdraw cexState
        ⟨"abababababababababababababababababababab.connector", "connector", 0, 300⟩
        5 "cdcdcdcdcdcdcdcdcdcdcdcdcdcdcdcdcdcdcdcd"
      = .ok (cexState,
          (.Withdraw, 5, List.replicate 20 171, List.replicate 20 205)) :=
  claim_C9_finish_withdraw.2.1 cexState
    ⟨"abababababababababababababababababababab.connector", "connector", 0, 300⟩
    5 "cdcdcdcdcdcdcdcdcdcdcdcdcdcdcdcdcdcdcdcd"
    (List.replicate 20 171) (List.replicate 20 205)
    (by decide) (by decide) (by decide)

end EthConn
